import Mathlib

/-!
Verification of the ChatNova in-process cache
(`backend/app/core/enhanced_cache.py` and `backend/app/core/cache.py`).

The development shallowly embeds the cache data model and operations:

* Python `datetime.now()` / `time.time()` values are passed explicitly as a
  `now : Nat` argument (a timestamp in arbitrary ticks; the code only ever
  adds TTLs to timestamps and compares them, which is monotone in any unit).
* The `OrderedDict` storage is an association list `List (String × CacheEntry)`
  in recency order: the head is the least-recently-used binding (popped by
  the Python popitem call with last set to False), the last element the
  most-recently-used.
* Python values (`Any`) are opaque payloads `Value` carrying exactly the data
  the cache inspects: the outcome of `pickle.dumps` and the outcome of
  `len(str(value).encode("utf-8"))` — either call may raise, hence both are
  `Option`; `calculateSizeE`/`setE` carry the exception path, and the total
  `set` is the returning path (exactly the source's behaviour whenever size
  computation returns).
* The memory bookkeeping in the source divides byte counts by `1024 / 1024`
  and compares the resulting floats.  All byte counts divided are of the form
  `k / 2 ^ 20` with a common constant positive denominator, so every
  comparison the code performs is equivalent to the comparison of the byte
  counts themselves; the embedding therefore keeps all bookkeeping in bytes
  (`Nat`).  The lemmas `memory_compare_bridge` and `memory_budget_bridge`
  below record this equivalence in exact rational arithmetic.  (For the
  magnitudes at play, CPython float division by `2 ^ 20` and the sums the
  code forms are exact, so the rational reading is the float behaviour.)
* Fallible code (only `pickle.dumps`) is modelled with `Except`; the cache
  operations themselves catch every exception they can encounter and are
  total functions, mirroring the source.
-/

namespace ChatNova

/-- Opaque model of a Python value stored in the cache: the cache only ever
looks at the result of `pickle.dumps(value)` (which may raise) and at
`len(str(value).encode("utf-8"))` — which may itself raise (a raising
`__str__`, a lone surrogate defeating the UTF-8 encode, `MemoryError`),
hence both fields are `Option`. -/
structure Value where
  pickleLen : Option Nat
  strUtf8Len : Option Nat
deriving DecidableEq

/-- Model of `pickle.dumps` restricted to the length of its result:
`Except.error` models the exception path. -/
def pickleDumpsLen (v : Value) : Except Unit Nat :=
  match v.pickleLen with
  | some n => Except.ok n
  | none => Except.error ()

/-- Model of `len(str(value).encode("utf-8"))`: `Except.error` models an
exception raised by `str(value)` or by the UTF-8 encode. -/
def strEncodeLen (v : Value) : Except Unit Nat :=
  match v.strUtf8Len with
  | some n => Except.ok n
  | none => Except.error ()

/-- `CacheEntry._calculate_size`, faithfully fallible: the `try` block
returns the pickle length; the `except Exception` block computes
`len(str(self.value).encode("utf-8")) + 200` with no further guard, so an
exception raised there propagates out of `_calculate_size`. -/
def calculateSizeE (v : Value) : Except Unit Nat :=
  match pickleDumpsLen v with
  | Except.ok n => Except.ok n
  | Except.error _ =>
    match strEncodeLen v with
    | Except.ok n => Except.ok (n + 200)
    | Except.error e => Except.error e

/-- The total projection of `calculateSizeE`, meaningful exactly on the
values for which the source call returns (`calculateSizeE v = Except.ok _`).
The `0` on the error branch is a placeholder that is never observable
through `MemoryManagedCache.setE`, which propagates the exception instead
of building an entry. -/
def calculateSize (v : Value) : Nat :=
  match calculateSizeE v with
  | Except.ok n => n
  | Except.error _ => 0

/-- `CacheEntry` of `enhanced_cache.py`: value plus lifecycle metadata. -/
structure CacheEntry where
  key : String
  value : Value
  ttl : Nat
  created_at : Nat
  last_accessed : Nat
  access_count : Nat
  size_bytes : Nat
deriving DecidableEq

/-- `CacheEntry.__init__` at wall-clock time `now` (the `access_time`
argument is never supplied by the callers, so `last_accessed` is also
`now`). -/
def CacheEntry.make (key : String) (value : Value) (ttl : Nat) (now : Nat) : CacheEntry :=
  { key := key, value := value, ttl := ttl, created_at := now, last_accessed := now,
    access_count := 1, size_bytes := calculateSize value }

/-- `CacheEntry.is_expired`: `datetime.now() > created_at + timedelta(seconds=ttl)`. -/
def CacheEntry.is_expired (e : CacheEntry) (now : Nat) : Bool :=
  e.created_at + e.ttl < now

/-- `CacheEntry.access`: refresh `last_accessed`, bump `access_count`. -/
def CacheEntry.access (e : CacheEntry) (now : Nat) : CacheEntry :=
  { e with last_accessed := now, access_count := e.access_count + 1 }

/-- The running counters of `MemoryManagedCache.stats`.  The source stores
`current_memory_mb = current_memory_bytes / 1024 / 1024`; the embedding
stores the byte numerator. -/
structure Stats where
  hits : Nat
  misses : Nat
  evictions : Nat
  cleanups : Nat
  memory_cleanups : Nat
  total_entries : Nat
  current_memory_bytes : Nat
  total_operations : Nat
deriving DecidableEq

/-- State of `MemoryManagedCache`: configuration, the `OrderedDict` in
recency order (head = least recently used), statistics, and the last
cleanup timestamp. -/
structure MemoryManagedCache where
  max_memory_mb : Nat
  max_entries : Nat
  cleanup_interval_seconds : Nat
  cache : List (String × CacheEntry)
  stats : Stats
  last_cleanup : Nat
deriving DecidableEq

/-- `MemoryManagedCache.__init__` at construction time `now`. -/
def MemoryManagedCache.make (max_memory_mb max_entries cleanup_interval_seconds : Nat)
    (now : Nat) : MemoryManagedCache :=
  { max_memory_mb := max_memory_mb, max_entries := max_entries,
    cleanup_interval_seconds := cleanup_interval_seconds, cache := [],
    stats := { hits := 0, misses := 0, evictions := 0, cleanups := 0,
               memory_cleanups := 0, total_entries := 0,
               current_memory_bytes := 0, total_operations := 0 },
    last_cleanup := now }

/-- Python `key in dict` / `dict[key]` on the association list. -/
def lookup : List (String × CacheEntry) → String → Option CacheEntry
  | [], _ => none
  | (k, e) :: rest, key => if k = key then some e else lookup rest key

/-- Python `del dict[key]`: remove the (unique) binding of `key`, keeping
the order of the remaining bindings. -/
def eraseKey : List (String × CacheEntry) → String → List (String × CacheEntry)
  | [], _ => []
  | (k, e) :: rest, key => if k = key then rest else (k, e) :: eraseKey rest key

/-- `MemoryManagedCache._get_current_memory_usage`, kept in bytes: the sum of
`size_bytes` over the stored entries (the source divides this sum by
`1024 / 1024`). -/
def currentMemoryBytes (l : List (String × CacheEntry)) : Nat :=
  (l.map (fun p => p.2.size_bytes)).sum

/-- The LRU loop of `MemoryManagedCache._evict_entries`, in bytes:

```python
while len(cache) > 0 and (len(cache) >= max_entries or evicted_mb < required_mb):
    lru_key, lru_entry = cache.popitem(last=False)
    evicted_mb += lru_entry.size_bytes / 1024 / 1024
    evicted_count += 1
    if evicted_count > 1000:
        break
```

`evicted` and `required` are the byte numerators of the source's
megabyte floats. -/
def evictLoop (maxEntries : Nat) (required : Nat) :
    List (String × CacheEntry) → Nat → Nat → List (String × CacheEntry) × Nat × Nat
  | [], evicted, count => ([], evicted, count)
  | (k, e) :: rest, evicted, count =>
    if maxEntries ≤ rest.length + 1 ∨ evicted < required then
      if 1000 < count + 1 then (rest, evicted + e.size_bytes, count + 1)
      else evictLoop maxEntries required rest (evicted + e.size_bytes) (count + 1)
    else ((k, e) :: rest, evicted, count)

/-- `MemoryManagedCache._evict_entries`: drop every expired entry first
(accumulating their sizes and count), then run the LRU loop; finally add the
total evicted count to `stats["evictions"]` and refresh the memory figure. -/
def evictEntries (c : MemoryManagedCache) (required : Nat) (now : Nat) : MemoryManagedCache :=
  let kept := c.cache.filter (fun p => !(p.2.is_expired now))
  let expiredFreed := currentMemoryBytes (c.cache.filter (fun p => p.2.is_expired now))
  let expiredCount := c.cache.length - kept.length
  let r := evictLoop c.max_entries required kept expiredFreed expiredCount
  { c with cache := r.1,
           stats := { c.stats with
                        evictions := c.stats.evictions + r.2.2,
                        current_memory_bytes := currentMemoryBytes r.1 } }

/-- `MemoryManagedCache._ensure_memory_space`: evict when the entry count is
at the ceiling or the memory figure plus the new entry's size exceeds the
budget (`current_mb + required_mb > max_memory_mb`, read in bytes). -/
def ensureMemorySpace (c : MemoryManagedCache) (requiredBytes : Nat) (now : Nat) :
    MemoryManagedCache :=
  if c.max_entries ≤ c.cache.length
      ∨ c.max_memory_mb * 1048576 < currentMemoryBytes c.cache + requiredBytes then
    evictEntries c requiredBytes now
  else c

/-- `MemoryManagedCache.set`: bump `total_operations`, build the entry
(eagerly computing its size), ensure capacity, delete any previous binding of
the key, append the new entry at the most-recently-used end, refresh
`total_entries`, and return `True`.  This is the returning path of the
operation; `setE` below adds the exception path of the size computation. -/
def MemoryManagedCache.set (c : MemoryManagedCache) (key : String) (value : Value)
    (ttl : Nat) (now : Nat) : MemoryManagedCache × Bool :=
  let c0 := { c with stats := { c.stats with total_operations := c.stats.total_operations + 1 } }
  let entry := CacheEntry.make key value ttl now
  let c1 := ensureMemorySpace c0 entry.size_bytes now
  let l := eraseKey c1.cache key ++ [(key, entry)]
  ({ c1 with cache := l, stats := { c1.stats with total_entries := l.length } }, true)

/-- `MemoryManagedCache.set` with its exception path.  The source bumps
`total_operations` and then builds the `CacheEntry`, whose
`_calculate_size` can raise (see `calculateSizeE`); the exception
propagates out of `set` before any other mutation, leaving the cache
dictionary untouched — `Except.error` carries that post-bump state.  When
size computation returns, the call is exactly the total `set` above
(whose entry uses the computed size). -/
def MemoryManagedCache.setE (c : MemoryManagedCache) (key : String) (value : Value)
    (ttl : Nat) (now : Nat) : Except MemoryManagedCache (MemoryManagedCache × Bool) :=
  match calculateSizeE value with
  | Except.error _ =>
    Except.error
      { c with stats := { c.stats with
                            total_operations := c.stats.total_operations + 1 } }
  | Except.ok _ => Except.ok (c.set key value ttl now)

/-- The cache list after `MemoryManagedCache._maybe_cleanup` ran inside an
operation at time `now`: unchanged if the interval has not elapsed, otherwise
with every expired entry removed (`_cleanup_expired`). -/
def cleanedList (c : MemoryManagedCache) (now : Nat) : List (String × CacheEntry) :=
  if now - c.last_cleanup < c.cleanup_interval_seconds then c.cache
  else c.cache.filter (fun p => !(p.2.is_expired now))

/-- `MemoryManagedCache._maybe_cleanup` (called by `get`): if the cleanup
interval has elapsed, run `_cleanup_expired`, record the sweep time and bump
`stats["cleanups"]`.  Note the sweep does not touch `total_entries`. -/
def maybeCleanup (c : MemoryManagedCache) (now : Nat) : MemoryManagedCache :=
  if now - c.last_cleanup < c.cleanup_interval_seconds then c
  else { c with cache := cleanedList c now, last_cleanup := now,
                stats := { c.stats with cleanups := c.stats.cleanups + 1 } }

/-- `MemoryManagedCache.get`: bump `total_operations`, maybe sweep, then:
miss on an absent key; on an expired entry delete it, refresh
`total_entries` and miss; otherwise record the access, move the binding to
the most-recently-used end, count a hit and return the stored value. -/
def MemoryManagedCache.get (c : MemoryManagedCache) (key : String) (now : Nat) :
    MemoryManagedCache × Option Value :=
  let c0 := { c with stats := { c.stats with total_operations := c.stats.total_operations + 1 } }
  let c1 := maybeCleanup c0 now
  match lookup c1.cache key with
  | none => ({ c1 with stats := { c1.stats with misses := c1.stats.misses + 1 } }, none)
  | some entry =>
    if entry.is_expired now then
      let l := eraseKey c1.cache key
      ({ c1 with cache := l,
                 stats := { c1.stats with
                              total_entries := l.length,
                              misses := c1.stats.misses + 1 } }, none)
    else
      let e := entry.access now
      ({ c1 with cache := eraseKey c1.cache key ++ [(key, e)],
                 stats := { c1.stats with hits := c1.stats.hits + 1 } }, some entry.value)

/-- `MemoryManagedCache.delete`: remove the binding and refresh
`total_entries`, returning whether the key was present. -/
def MemoryManagedCache.delete (c : MemoryManagedCache) (key : String) :
    MemoryManagedCache × Bool :=
  match lookup c.cache key with
  | some _ =>
    let l := eraseKey c.cache key
    ({ c with cache := l, stats := { c.stats with total_entries := l.length } }, true)
  | none => (c, false)

/-- The dictionary returned by `MemoryManagedCache.get_stats` (the
`system_memory` sub-dictionary is process introspection via `psutil` and is
outside the model).  The percentage fields are the source's float
expressions read as exact rationals. -/
structure StatsReport where
  hits : Nat
  misses : Nat
  evictions : Nat
  cleanups : Nat
  total_entries : Nat
  total_operations : Nat
  current_memory_mb : Rat
  hit_rate_percent : Rat
  memory_utilization_percent : Rat
  entries_utilization_percent : Rat

/-- `MemoryManagedCache.get_stats`. -/
def MemoryManagedCache.get_stats (c : MemoryManagedCache) : StatsReport :=
  { hits := c.stats.hits, misses := c.stats.misses, evictions := c.stats.evictions,
    cleanups := c.stats.cleanups, total_entries := c.stats.total_entries,
    total_operations := c.stats.total_operations,
    current_memory_mb := (currentMemoryBytes c.cache : Rat) / 1048576,
    hit_rate_percent :=
      ((c.stats.hits : Rat) / (max (c.stats.hits + c.stats.misses) 1 : Nat)) * 100,
    memory_utilization_percent :=
      ((currentMemoryBytes c.cache : Rat) / 1048576 / (c.max_memory_mb : Rat)) * 100,
    entries_utilization_percent := ((c.cache.length : Rat) / (c.max_entries : Rat)) * 100 }

/-- The cache key built by `get_chat_history` / `set_chat_history` in both
`CacheManager` and `EnhancedCacheManager`.  The source branches on Python
truthiness, `if session_id:`, so it builds
`f"chat_history:{user_id}:session:{session_id}:{skip}:{limit}"` only when
`session_id` is non-`None` AND non-zero; for `None` — or the falsy `0` —
it builds `f"chat_history:{user_id}:{skip}:{limit}"`.  Python renders the
non-negative integers in decimal, i.e. `Nat.repr`. -/
def chatHistoryKey (user_id : Nat) (session_id : Option Nat) (skip limit : Nat) : String :=
  match session_id with
  | some s =>
    if s = 0 then
      "chat_history:" ++ Nat.repr user_id ++ ":" ++ Nat.repr skip ++ ":" ++ Nat.repr limit
    else
      "chat_history:" ++ Nat.repr user_id ++ ":session:" ++ Nat.repr s ++ ":"
        ++ Nat.repr skip ++ ":" ++ Nat.repr limit
  | none => "chat_history:" ++ Nat.repr user_id ++ ":" ++ Nat.repr skip ++ ":" ++ Nat.repr limit

/-- The `cache_key` string that `invalidate_user_history` matches with
`startswith`.  The source again branches on truthiness, `if session_id:`:
`f"chat_history:{user_id}:session:{session_id}:*"` (note the literal `*`)
only for a non-`None`, non-zero session id; for `None` — or the falsy `0`
— the all-user-history string `f"chat_history:{user_id}:"`.  Identical in
`CacheManager` and `EnhancedCacheManager`. -/
def userHistoryInvalidationKey (user_id : Nat) (session_id : Option Nat) : String :=
  match session_id with
  | some s =>
    if s = 0 then "chat_history:" ++ Nat.repr user_id ++ ":"
    else "chat_history:" ++ Nat.repr user_id ++ ":session:" ++ Nat.repr s ++ ":*"
  | none => "chat_history:" ++ Nat.repr user_id ++ ":"

/-- Python `str.startswith`. -/
def pyStartsWith (s pre : String) : Bool :=
  pre.data.isPrefixOf s.data

/-- `for key in keys_to_delete: self.cache.delete(key)`. -/
def deleteKeys (c : MemoryManagedCache) : List String → MemoryManagedCache
  | [] => c
  | k :: ks => deleteKeys (c.delete k).1 ks

/-- The scan-and-delete body shared by both branches of
`invalidate_user_history` (and by `invalidate_llm_responses_for_user`):
`keys_to_delete = [k for k in self.cache._cache.keys() if k.startswith(ck)]`
followed by deleting each collected key. -/
def invalidateScan (c : MemoryManagedCache) (ck : String) : MemoryManagedCache :=
  deleteKeys c ((c.cache.map Prod.fst).filter (fun k => pyStartsWith k ck))

/-- `CacheManager.invalidate_user_history` / the identical
`EnhancedCacheManager.invalidate_user_history`: build the match string, scan
the engine's internal key collection, delete the matches.  It returns
`None` in Python, so the embedding returns only the cache state. -/
def invalidate_user_history (c : MemoryManagedCache) (user_id : Nat)
    (session_id : Option Nat) : MemoryManagedCache :=
  invalidateScan c (userHistoryInvalidationKey user_id session_id)

/-- Modelled from the spec: the engine operation
`invalidate_by_prefix(prefix) -> int` — "removes every entry whose key
starts with `prefix`; returns count removed".  No such operation exists in
the source (`MemoryManagedCache` has no such method; the managers scan
`cache._cache` themselves), so this definition follows the spec's words and
is compared against the source's scan-and-delete above. -/
def invalidate_by_prefix_spec (c : MemoryManagedCache) (ck : String) :
    MemoryManagedCache × Nat :=
  let kept := c.cache.filter (fun p => !(pyStartsWith p.1 ck))
  ({ c with cache := kept, stats := { c.stats with total_entries := kept.length } },
    c.cache.length - kept.length)

/-- A `set(key, value, ttl)` call together with the wall-clock instant at
which it runs. -/
structure SetOp where
  key : String
  value : Value
  ttl : Nat
  now : Nat
deriving DecidableEq

/-- Run a sequence of `set` calls. -/
def applySets (c : MemoryManagedCache) : List SetOp → MemoryManagedCache
  | [] => c
  | op :: ops => applySets (c.set op.key op.value op.ttl op.now).1 ops

/-- Run a sequence of `get` calls, collecting the returned values. -/
def applyGets (c : MemoryManagedCache) :
    List (String × Nat) → MemoryManagedCache × List (Option Value)
  | [] => (c, [])
  | (k, now) :: ops =>
    let r := c.get k now
    let rest := applyGets r.1 ops
    (rest.1, r.2 :: rest.2)

/-- Bridge justifying the byte-level bookkeeping: comparing two byte counts
after the source's division by `1024 / 1024` is comparing the byte counts. -/
theorem memory_compare_bridge (a b : Nat) :
    ((a : Rat) / 1048576 < (b : Rat) / 1048576) ↔ a < b := by
  rw [div_lt_div_iff_of_pos_right (by norm_num : (0 : Rat) < 1048576)]
  exact_mod_cast Iff.rfl

/-- Bridge justifying the byte-level budget check: the source's
`current_mb + required_mb > max_memory_mb` with `x_mb = x_bytes / 1024 / 1024`
is `max_memory_mb * 1048576 < current_bytes + required_bytes`. -/
theorem memory_budget_bridge (m a b : Nat) :
    ((m : Rat) < (a : Rat) / 1048576 + (b : Rat) / 1048576) ↔ m * 1048576 < a + b := by
  rw [div_add_div_same, lt_div_iff₀ (by norm_num : (0 : Rat) < 1048576)]
  exact_mod_cast Iff.rfl

/-! ### Association-list lemmas

`OrderedDict` keys are unique; `NodupKeys` states that for a model state. -/

/-- The keys of the ordered collection, in recency order. -/
def keys (l : List (String × CacheEntry)) : List String :=
  l.map Prod.fst

/-- Uniqueness of dictionary keys. -/
def NodupKeys (l : List (String × CacheEntry)) : Prop :=
  (keys l).Nodup

instance (l : List (String × CacheEntry)) : Decidable (NodupKeys l) := by
  unfold NodupKeys; infer_instance

theorem lookup_mem {l : List (String × CacheEntry)} {k : String} {e : CacheEntry}
    (h : lookup l k = some e) : (k, e) ∈ l := by
  induction l with
  | nil => simp [lookup] at h
  | cons p rest ih =>
    obtain ⟨k', e'⟩ := p
    by_cases hk : k' = k
    · subst hk
      simp [lookup] at h
      simp [h]
    · simp [lookup, hk] at h
      exact List.mem_cons_of_mem _ (ih h)

theorem mem_lookup {l : List (String × CacheEntry)} {k : String} {e : CacheEntry}
    (hn : NodupKeys l) (h : (k, e) ∈ l) : lookup l k = some e := by
  induction l with
  | nil => simp at h
  | cons p rest ih =>
    obtain ⟨k', e'⟩ := p
    simp only [NodupKeys, keys, List.map_cons, List.nodup_cons] at hn
    rcases List.mem_cons.mp h with heq | hmem
    · injection heq with h1 h2
      subst h1
      subst h2
      simp [lookup]
    · by_cases hk : k' = k
      · subst hk
        exact absurd (List.mem_map_of_mem Prod.fst hmem) hn.1
      · simpa [lookup, hk] using ih hn.2 hmem

theorem lookup_eq_none_iff {l : List (String × CacheEntry)} {k : String} :
    lookup l k = none ↔ k ∉ keys l := by
  induction l with
  | nil => simp [lookup, keys]
  | cons p rest ih =>
    obtain ⟨k', e'⟩ := p
    by_cases hk : k' = k
    · subst hk
      simp [lookup, keys]
    · simp [lookup, hk, keys, Ne.symm hk]
      simpa [keys] using ih

theorem eraseKey_of_not_mem {l : List (String × CacheEntry)} {k : String}
    (h : k ∉ keys l) : eraseKey l k = l := by
  induction l with
  | nil => rfl
  | cons p rest ih =>
    obtain ⟨k', e'⟩ := p
    simp only [keys, List.map_cons, List.mem_cons] at h
    push_neg at h
    simp [eraseKey, Ne.symm h.1, ih (by simpa [keys] using h.2)]

theorem eraseKey_sublist (l : List (String × CacheEntry)) (k : String) :
    (eraseKey l k).Sublist l := by
  induction l with
  | nil => simp [eraseKey]
  | cons p rest ih =>
    obtain ⟨k', e'⟩ := p
    by_cases hk : k' = k
    · simp only [eraseKey, hk, if_true, eq_self_iff_true]
      exact List.sublist_cons_self _ _
    · simp only [eraseKey, hk, if_false]
      exact ih.cons₂ (k', e')

theorem length_eraseKey_le (l : List (String × CacheEntry)) (k : String) :
    (eraseKey l k).length ≤ l.length :=
  (eraseKey_sublist l k).length_le

theorem length_eraseKey_of_mem {l : List (String × CacheEntry)} {k : String}
    (h : k ∈ keys l) : (eraseKey l k).length + 1 = l.length := by
  induction l with
  | nil => simp [keys] at h
  | cons p rest ih =>
    obtain ⟨k', e'⟩ := p
    by_cases hk : k' = k
    · simp [eraseKey, hk]
    · simp only [keys, List.map_cons, List.mem_cons] at h
      rcases h with h | h
      · exact absurd h.symm hk
      · simp [eraseKey, hk, ← ih (by simpa [keys] using h)]

theorem lookup_eraseKey_self {l : List (String × CacheEntry)} {k : String}
    (hn : NodupKeys l) : lookup (eraseKey l k) k = none := by
  induction l with
  | nil => simp [eraseKey, lookup]
  | cons p rest ih =>
    obtain ⟨k', e'⟩ := p
    simp only [NodupKeys, keys, List.map_cons, List.nodup_cons] at hn
    by_cases hk : k' = k
    · subst hk
      simp [eraseKey]
      exact lookup_eq_none_iff.mpr (by simpa [keys] using hn.1)
    · simp [eraseKey, hk, lookup, ih hn.2]

theorem lookup_eraseKey_ne {l : List (String × CacheEntry)} {k k' : String}
    (h : k' ≠ k) : lookup (eraseKey l k) k' = lookup l k' := by
  induction l with
  | nil => simp [eraseKey]
  | cons p rest ih =>
    obtain ⟨k0, e0⟩ := p
    by_cases hk : k0 = k
    · subst hk
      simp [eraseKey, lookup, Ne.symm h]
    · by_cases hk' : k0 = k'
      · subst hk'
        simp [eraseKey, hk, lookup]
      · simp [eraseKey, hk, lookup, hk', ih]

theorem lookup_append (l1 l2 : List (String × CacheEntry)) (k : String) :
    lookup (l1 ++ l2) k = match lookup l1 k with
      | some e => some e
      | none => lookup l2 k := by
  induction l1 with
  | nil => simp [lookup]
  | cons p rest ih =>
    obtain ⟨k', e'⟩ := p
    by_cases hk : k' = k
    · simp [lookup, hk]
    · simp [lookup, hk, ih]

theorem nodupKeys_of_sublist {l l' : List (String × CacheEntry)}
    (hs : l'.Sublist l) (hn : NodupKeys l) : NodupKeys l' :=
  List.Nodup.sublist (hs.map Prod.fst) hn

theorem lookup_of_sublist {l l' : List (String × CacheEntry)} {k : String} {e : CacheEntry}
    (hn : NodupKeys l) (hs : l'.Sublist l) (h : lookup l' k = some e) :
    lookup l k = some e :=
  mem_lookup hn (hs.subset (lookup_mem h))

theorem cleanedList_sublist (c : MemoryManagedCache) (now : Nat) :
    (cleanedList c now).Sublist c.cache := by
  unfold cleanedList
  split
  · exact List.Sublist.refl _
  · exact List.filter_sublist _

/-! ### Branch characterisations of `get` -/

theorem get_branch_none {c : MemoryManagedCache} {k : String} {now : Nat}
    (h : lookup (cleanedList c now) k = none) :
    (c.get k now).2 = none ∧ (c.get k now).1.cache = cleanedList c now
    ∧ (c.get k now).1.stats.misses = c.stats.misses + 1
    ∧ (c.get k now).1.stats.hits = c.stats.hits := by
  by_cases hcl : now - c.last_cleanup < c.cleanup_interval_seconds
  all_goals
    simp only [cleanedList, hcl, if_true, if_false, reduceIte] at h ⊢
    simp only [MemoryManagedCache.get, maybeCleanup, cleanedList, hcl, if_true, if_false,
      reduceIte, h]
    exact ⟨trivial, trivial, trivial, trivial⟩

theorem get_branch_expired {c : MemoryManagedCache} {k : String} {now : Nat} {e : CacheEntry}
    (h : lookup (cleanedList c now) k = some e) (hexp : e.is_expired now = true) :
    (c.get k now).2 = none
    ∧ (c.get k now).1.cache = eraseKey (cleanedList c now) k
    ∧ (c.get k now).1.stats.misses = c.stats.misses + 1
    ∧ (c.get k now).1.stats.hits = c.stats.hits := by
  by_cases hcl : now - c.last_cleanup < c.cleanup_interval_seconds
  all_goals
    simp only [cleanedList, hcl, if_true, if_false, reduceIte] at h ⊢
    simp only [MemoryManagedCache.get, maybeCleanup, cleanedList, hcl, if_true, if_false,
      reduceIte, h, hexp]
    exact ⟨trivial, trivial, trivial, trivial⟩

theorem get_branch_hit {c : MemoryManagedCache} {k : String} {now : Nat} {e : CacheEntry}
    (h : lookup (cleanedList c now) k = some e) (hexp : e.is_expired now = false) :
    (c.get k now).2 = some e.value
    ∧ (c.get k now).1.cache = eraseKey (cleanedList c now) k ++ [(k, e.access now)]
    ∧ (c.get k now).1.stats.misses = c.stats.misses
    ∧ (c.get k now).1.stats.hits = c.stats.hits + 1 := by
  by_cases hcl : now - c.last_cleanup < c.cleanup_interval_seconds
  all_goals
    simp only [cleanedList, hcl, if_true, if_false, reduceIte] at h ⊢
    simp only [MemoryManagedCache.get, maybeCleanup, cleanedList, hcl, if_true, if_false,
      reduceIte, h, hexp]
    simp

/-! ### Claim C4 -/

/-- A value on which `pickle.dumps` raises and `str(value).encode("utf-8")`
raises as well (e.g. an object whose `__str__` raises). -/
def badValue : Value := ⟨none, none⟩

/-- Counterexample to C4 as stated: the claim quantifies over every value,
including ones whose serialisation fails, and asserts size estimation never
raises and `set` always returns `True`.  But the fallback
`len(str(self.value).encode("utf-8")) + 200` runs inside the `except` block
with no further guard, so for a value whose `str`/encode raises,
`_calculate_size` — and hence `set` — propagates the exception: at
`badValue` the size estimate is an exception and `set` raises instead of
returning `True` (only `total_operations` was already bumped). -/
theorem c4_set_can_raise_counterexample :
    calculateSizeE badValue = Except.error ()
    ∧ (MemoryManagedCache.make 500 100 300 0).setE "k" badValue 300 1
        = Except.error
            { MemoryManagedCache.make 500 100 300 0 with
                stats := { hits := 0, misses := 0, evictions := 0, cleanups := 0,
                           memory_cleanups := 0, total_entries := 0,
                           current_memory_bytes := 0, total_operations := 1 } } :=
  ⟨rfl, rfl⟩

/-- C4 (amended): size estimation tries the pickle-based measurement first
and, when pickling fails, falls back to
`len(str(value).encode("utf-8")) + 200` — but the fallback itself is
unguarded, so it degrades without raising only when that string encoding
succeeds; whenever size estimation returns, `set` returns (no other step of
`set` can raise) and its result is `True`. -/
theorem c4_estimate_size_fallback_set_returns_true :
    (∀ (v : Value) (n : Nat), pickleDumpsLen v = Except.ok n →
       calculateSizeE v = Except.ok n)
    ∧ (∀ (v : Value) (n : Nat), pickleDumpsLen v = Except.error () →
       strEncodeLen v = Except.ok n →
       calculateSizeE v = Except.ok (n + 200))
    ∧ (∀ (c : MemoryManagedCache) (k : String) (v : Value) (ttl now sz : Nat),
       calculateSizeE v = Except.ok sz →
       c.setE k v ttl now = Except.ok (c.set k v ttl now)
       ∧ (c.set k v ttl now).2 = true) := by
  refine ⟨?_, ?_, ?_⟩
  · intro v n h
    simp [calculateSizeE, h]
  · intro v n h1 h2
    simp [calculateSizeE, h1, h2]
  · intro c k v ttl now sz h
    unfold MemoryManagedCache.setE
    rw [h]
    exact ⟨rfl, rfl⟩

/-- Witness for C4 (amended) at a value whose pickling fails but whose
string fallback succeeds, and a concrete `set` call on it. -/
theorem c4_estimate_size_fallback_set_returns_true_witness :
    calculateSizeE ⟨none, some 7⟩ = Except.ok (7 + 200)
    ∧ (MemoryManagedCache.make 500 100 300 0).setE "k" ⟨none, some 7⟩ 300 1
        = Except.ok ((MemoryManagedCache.make 500 100 300 0).set "k" ⟨none, some 7⟩ 300 1)
    ∧ ((MemoryManagedCache.make 500 100 300 0).set "k" ⟨none, some 7⟩ 300 1).2 = true :=
  ⟨c4_estimate_size_fallback_set_returns_true.2.1 ⟨none, some 7⟩ 7 rfl rfl,
   (c4_estimate_size_fallback_set_returns_true.2.2 (MemoryManagedCache.make 500 100 300 0)
     "k" ⟨none, some 7⟩ 300 1 (7 + 200) rfl).1,
   (c4_estimate_size_fallback_set_returns_true.2.2 (MemoryManagedCache.make 500 100 300 0)
     "k" ⟨none, some 7⟩ 300 1 (7 + 200) rfl).2⟩

/-! ### Claim C5 -/

/-- A small concrete payload: `pickle.dumps` succeeds with 100 bytes. -/
def c5Value : Value := ⟨some 100, some 10⟩

/-- The C5 scenario on a fresh cache with `max_entries = 2`:
`set(a)`, `set(b)`, `get(a)`, `set(c)` at increasing instants, with TTLs
large enough that nothing is expired. -/
def c5Final : MemoryManagedCache :=
  let s1 := ((MemoryManagedCache.make 500 2 300 0).set "a" c5Value 300 10).1
  let s2 := (s1.set "b" c5Value 300 11).1
  let g := (s2.get "a" 12).1
  (g.set "c" c5Value 300 13).1

/-- C5: with `max_entries = 2` and no expired entries, the sequence
`set(a)`, `set(b)`, `get(a)`, `set(c)` evicts exactly `b`: the `get`
promotes `a` to most-recently-used, so `set(c)`'s eviction removes `b`,
leaving `a` and `c`. -/
theorem c5_lru_promotes_get_evicts_lru :
    (lookup c5Final.cache "a").isSome = true
    ∧ (lookup c5Final.cache "c").isSome = true
    ∧ lookup c5Final.cache "b" = none
    ∧ c5Final.cache.length = 2 := by
  decide

/-! ### Claim C6 -/

/-- C6: an entry is expired exactly when the current time exceeds
`created_at + ttl`; recording an access changes only `last_accessed` and
`access_count`; and no `get` call changes the `created_at` or `ttl` of any
entry still stored, so reads never move an entry's expiry time. -/
theorem c6_expiry_never_reset_by_reads :
    (∀ (e : CacheEntry) (now : Nat), e.is_expired now = true ↔ e.created_at + e.ttl < now)
    ∧ (∀ (e : CacheEntry) (now : Nat),
        (e.access now).created_at = e.created_at ∧ (e.access now).ttl = e.ttl
        ∧ (e.access now).key = e.key ∧ (e.access now).value = e.value
        ∧ (e.access now).size_bytes = e.size_bytes
        ∧ (e.access now).last_accessed = now
        ∧ (e.access now).access_count = e.access_count + 1)
    ∧ (∀ (c : MemoryManagedCache) (k : String) (now : Nat) (k' : String) (e' : CacheEntry),
        NodupKeys c.cache →
        lookup (c.get k now).1.cache k' = some e' →
        ∃ e, lookup c.cache k' = some e ∧ e'.created_at = e.created_at ∧ e'.ttl = e.ttl) := by
  refine ⟨?_, ?_, ?_⟩
  · intro e now
    simp [CacheEntry.is_expired]
  · intro e now
    simp [CacheEntry.access]
  · intro c k now k' e' hn h
    have hcls := cleanedList_sublist c now
    have hncl : NodupKeys (cleanedList c now) := nodupKeys_of_sublist hcls hn
    cases hm : lookup (cleanedList c now) k with
    | none =>
      obtain ⟨-, hc, -, -⟩ := get_branch_none hm
      rw [hc] at h
      exact ⟨e', lookup_of_sublist hn hcls h, rfl, rfl⟩
    | some entry =>
      cases hexp : entry.is_expired now with
      | true =>
        obtain ⟨-, hc, -, -⟩ := get_branch_expired hm hexp
        rw [hc] at h
        rcases eq_or_ne k' k with rfl | hne
        · rw [lookup_eraseKey_self hncl] at h
          cases h
        · rw [lookup_eraseKey_ne hne] at h
          exact ⟨e', lookup_of_sublist hn hcls h, rfl, rfl⟩
      | false =>
        obtain ⟨-, hc, -, -⟩ := get_branch_hit hm hexp
        rw [hc, lookup_append] at h
        cases he : lookup (eraseKey (cleanedList c now) k) k' with
        | some e0 =>
          rw [he] at h
          have h3 : e0 = e' := by injection h
          rcases eq_or_ne k' k with rfl | hne
          · rw [lookup_eraseKey_self hncl] at he
            cases he
          · rw [lookup_eraseKey_ne hne] at he
            exact ⟨e0, lookup_of_sublist hn hcls he, by rw [h3], by rw [h3]⟩
        | none =>
          rw [he] at h
          simp only [lookup] at h
          by_cases hk : k = k'
          · subst hk
            simp only [if_pos rfl] at h
            cases h
            exact ⟨entry, lookup_of_sublist hn hcls hm, rfl, rfl⟩
          · simp only [if_neg hk] at h
            cases h

/-- Witness for C6 on a concrete cache, key and time. -/
theorem c6_expiry_never_reset_by_reads_witness :
    NodupKeys c5Final.cache
    ∧ (∀ e', lookup (c5Final.get "a" 20).1.cache "c" = some e' →
        ∃ e, lookup c5Final.cache "c" = some e
          ∧ e'.created_at = e.created_at ∧ e'.ttl = e.ttl) :=
  ⟨by decide, fun e' h =>
    c6_expiry_never_reset_by_reads.2.2 c5Final "a" 20 "c" e' (by decide) h⟩

theorem lookup_filter_some {l : List (String × CacheEntry)} {p : String × CacheEntry → Bool}
    {k : String} {e : CacheEntry} (hn : NodupKeys l) (h : lookup l k = some e)
    (hp : p (k, e) = true) : lookup (l.filter p) k = some e :=
  mem_lookup (nodupKeys_of_sublist (List.filter_sublist l) hn)
    (List.mem_filter.mpr ⟨lookup_mem h, hp⟩)

theorem lookup_filter_none {l : List (String × CacheEntry)} {p : String × CacheEntry → Bool}
    {k : String} {e : CacheEntry} (hn : NodupKeys l) (h : lookup l k = some e)
    (hp : p (k, e) = false) : lookup (l.filter p) k = none := by
  cases hf : lookup (l.filter p) k with
  | none => rfl
  | some e2 =>
    have hmem : (k, e2) ∈ l.filter p := lookup_mem hf
    have hmem2 : (k, e2) ∈ l := (List.mem_filter.mp hmem).1
    have : e2 = e := by
      have := mem_lookup hn hmem2
      rw [h] at this
      injection this with h2
      exact h2.symm
    subst this
    rw [(List.mem_filter.mp hmem).2] at hp
    cases hp

/-! ### Claim C7 -/

/-- C7: for a key `k` stored in the cache: if its entry is expired, `get(k)`
removes it from the internal state, counts a miss and returns a miss; if it
is not expired, `get(k)` returns the stored value, bumps the entry's
`access_count`, refreshes `last_accessed`, moves the binding to the
most-recently-used (last) position, and counts a hit. -/
theorem c7_get_hit_and_expired_paths
    (c : MemoryManagedCache) (k : String) (now : Nat) (e : CacheEntry)
    (hn : NodupKeys c.cache) (h : lookup c.cache k = some e) :
    (e.is_expired now = true →
       (c.get k now).2 = none
       ∧ lookup (c.get k now).1.cache k = none
       ∧ (c.get k now).1.stats.misses = c.stats.misses + 1
       ∧ (c.get k now).1.stats.hits = c.stats.hits)
    ∧ (e.is_expired now = false →
       (c.get k now).2 = some e.value
       ∧ (c.get k now).1.cache = eraseKey (cleanedList c now) k ++ [(k, e.access now)]
       ∧ lookup (c.get k now).1.cache k = some (e.access now)
       ∧ (e.access now).access_count = e.access_count + 1
       ∧ (e.access now).last_accessed = now
       ∧ (c.get k now).1.stats.hits = c.stats.hits + 1
       ∧ (c.get k now).1.stats.misses = c.stats.misses) := by
  have hncl : NodupKeys (cleanedList c now) :=
    nodupKeys_of_sublist (cleanedList_sublist c now) hn
  constructor
  · intro hexp
    by_cases hcl : now - c.last_cleanup < c.cleanup_interval_seconds
    · have hceq : cleanedList c now = c.cache := by simp [cleanedList, hcl]
      have hm : lookup (cleanedList c now) k = some e := by rw [hceq]; exact h
      obtain ⟨h1, h2, h3, h4⟩ := get_branch_expired hm hexp
      refine ⟨h1, ?_, h3, h4⟩
      rw [h2]
      exact lookup_eraseKey_self hncl
    · have hceq : cleanedList c now = c.cache.filter (fun p => !(p.2.is_expired now)) := by
        simp [cleanedList, hcl]
      have hm : lookup (cleanedList c now) k = none := by
        rw [hceq]
        exact lookup_filter_none hn h (by simp [hexp])
      obtain ⟨h1, h2, h3, h4⟩ := get_branch_none hm
      refine ⟨h1, ?_, h3, h4⟩
      rw [h2]
      exact hm
  · intro hexp
    have hm : lookup (cleanedList c now) k = some e := by
      by_cases hcl : now - c.last_cleanup < c.cleanup_interval_seconds
      · have hceq : cleanedList c now = c.cache := by simp [cleanedList, hcl]
        rw [hceq]
        exact h
      · have hceq : cleanedList c now = c.cache.filter (fun p => !(p.2.is_expired now)) := by
          simp [cleanedList, hcl]
        rw [hceq]
        exact lookup_filter_some hn h (by simp [hexp])
    obtain ⟨h1, h2, h3, h4⟩ := get_branch_hit hm hexp
    refine ⟨h1, h2, ?_, rfl, rfl, h4, h3⟩
    rw [h2, lookup_append, lookup_eraseKey_self hncl]
    simp [lookup]

/-- Witness for C7: a hit on a live entry and a miss on an expired one, on
concrete caches. -/
theorem c7_get_hit_and_expired_paths_witness :
    ((c5Final.get "a" 20).2.isSome = true
      ∧ (c5Final.get "a" 20).1.stats.hits = c5Final.stats.hits + 1)
    ∧ (let cexp := ((MemoryManagedCache.make 500 10 300 0).set "x" c5Value 1 1).1
       (cexp.get "x" 10).2 = none ∧ lookup (cexp.get "x" 10).1.cache "x" = none) := by
  constructor
  · have hstep := c7_get_hit_and_expired_paths c5Final "a" 20
      ((CacheEntry.make "a" c5Value 300 10).access 12) (by decide) (by decide)
    obtain ⟨h1, -, -, -, -, h6, -⟩ := hstep.2 (by decide)
    exact ⟨by rw [h1]; rfl, h6⟩
  · have hstep := c7_get_hit_and_expired_paths
      (((MemoryManagedCache.make 500 10 300 0).set "x" c5Value 1 1).1) "x" 10
      (CacheEntry.make "x" c5Value 1 1) (by decide) (by decide)
    obtain ⟨h1, h2, -, -⟩ := hstep.1 (by decide)
    exact ⟨h1, h2⟩

/-! ### Claim C8 -/

/-- Number of `get` results in a run that were hits (returned a value). -/
def countSome (rs : List (Option Value)) : Nat :=
  (rs.filter (fun r => r.isSome)).length

/-- Number of `get` results in a run that were misses (returned `None`). -/
def countNone (rs : List (Option Value)) : Nat :=
  (rs.filter (fun r => !r.isSome)).length

theorem countSome_cons (r : Option Value) (rs : List (Option Value)) :
    countSome (r :: rs) = (if r.isSome then 1 else 0) + countSome rs := by
  cases r
  all_goals simp [countSome, List.filter_cons, Nat.add_comm]

theorem countNone_cons (r : Option Value) (rs : List (Option Value)) :
    countNone (r :: rs) = (if r.isSome then 0 else 1) + countNone rs := by
  cases r
  all_goals simp [countNone, List.filter_cons, Nat.add_comm]

theorem countSome_add_countNone (rs : List (Option Value)) :
    countSome rs + countNone rs = rs.length := by
  induction rs with
  | nil => rfl
  | cons r rest ih =>
    rw [countSome_cons, countNone_cons, List.length_cons]
    cases hr : r.isSome
    all_goals simp only [if_true, if_false, Bool.false_eq_true, reduceIte]
    all_goals omega

theorem get_stats_delta (c : MemoryManagedCache) (k : String) (now : Nat) :
    ((c.get k now).2.isSome = true →
       (c.get k now).1.stats.hits = c.stats.hits + 1
       ∧ (c.get k now).1.stats.misses = c.stats.misses)
    ∧ ((c.get k now).2.isSome = false →
       (c.get k now).1.stats.hits = c.stats.hits
       ∧ (c.get k now).1.stats.misses = c.stats.misses + 1) := by
  cases hm : lookup (cleanedList c now) k with
  | none =>
    obtain ⟨h1, -, h3, h4⟩ := get_branch_none hm
    rw [h1]
    refine ⟨fun hc => by simp at hc, fun _ => ⟨h4, h3⟩⟩
  | some entry =>
    cases hexp : entry.is_expired now with
    | true =>
      obtain ⟨h1, -, h3, h4⟩ := get_branch_expired hm hexp
      rw [h1]
      refine ⟨fun hc => by simp at hc, fun _ => ⟨h4, h3⟩⟩
    | false =>
      obtain ⟨h1, -, h3, h4⟩ := get_branch_hit hm hexp
      rw [h1]
      refine ⟨fun _ => ⟨h4, h3⟩, fun hc => by simp at hc⟩

theorem applyGets_stats (ops : List (String × Nat)) :
    ∀ c : MemoryManagedCache,
      (applyGets c ops).1.stats.hits = c.stats.hits + countSome (applyGets c ops).2
      ∧ (applyGets c ops).1.stats.misses = c.stats.misses + countNone (applyGets c ops).2
      ∧ (applyGets c ops).2.length = ops.length := by
  induction ops with
  | nil => exact fun c => ⟨rfl, rfl, rfl⟩
  | cons op ops ih =>
    intro c
    obtain ⟨k, now⟩ := op
    obtain ⟨ih1, ih2, ih3⟩ := ih (c.get k now).1
    have hd := get_stats_delta c k now
    have happ : applyGets c ((k, now) :: ops)
        = ((applyGets (c.get k now).1 ops).1,
           (c.get k now).2 :: (applyGets (c.get k now).1 ops).2) := rfl
    rw [happ]
    cases hr : (c.get k now).2.isSome with
    | true =>
      obtain ⟨hh, hm⟩ := hd.1 hr
      rw [countSome_cons, countNone_cons, hr]
      simp only [List.length_cons, Bool.false_eq_true, if_false, if_true, reduceIte]
      exact ⟨by omega, by omega, by omega⟩
    | false =>
      obtain ⟨hh, hm⟩ := hd.2 hr
      rw [countSome_cons, countNone_cons, hr]
      simp only [List.length_cons, Bool.false_eq_true, if_false, if_true, reduceIte]
      exact ⟨by omega, by omega, by omega⟩

/-- C8: on a fresh cache, after any non-empty sequence of `get` calls of
which `h` returned hits and `m` returned misses, the statistics report
`hits = h`, `misses = m`, and `hit_rate_percent = 100 * h / n` exactly
(`n = h + m` the number of calls), so in particular within any rounding
tolerance. -/
theorem c8_stats_consistency (mm me ci t0 : Nat) (ops : List (String × Nat))
    (hne : ops ≠ []) :
    (applyGets (MemoryManagedCache.make mm me ci t0) ops).1.get_stats.hits
        = countSome (applyGets (MemoryManagedCache.make mm me ci t0) ops).2
    ∧ (applyGets (MemoryManagedCache.make mm me ci t0) ops).1.get_stats.misses
        = countNone (applyGets (MemoryManagedCache.make mm me ci t0) ops).2
    ∧ countSome (applyGets (MemoryManagedCache.make mm me ci t0) ops).2
        + countNone (applyGets (MemoryManagedCache.make mm me ci t0) ops).2
        = ops.length
    ∧ (applyGets (MemoryManagedCache.make mm me ci t0) ops).1.get_stats.hit_rate_percent
        = 100 * (countSome (applyGets (MemoryManagedCache.make mm me ci t0) ops).2 : Rat)
            / (ops.length : Rat) := by
  obtain ⟨h1, h2, h3⟩ := applyGets_stats ops (MemoryManagedCache.make mm me ci t0)
  have hh : (applyGets (MemoryManagedCache.make mm me ci t0) ops).1.stats.hits
      = countSome (applyGets (MemoryManagedCache.make mm me ci t0) ops).2 := by
    rw [h1]
    exact Nat.zero_add _
  have hm : (applyGets (MemoryManagedCache.make mm me ci t0) ops).1.stats.misses
      = countNone (applyGets (MemoryManagedCache.make mm me ci t0) ops).2 := by
    rw [h2]
    exact Nat.zero_add _
  have hn : countSome (applyGets (MemoryManagedCache.make mm me ci t0) ops).2
      + countNone (applyGets (MemoryManagedCache.make mm me ci t0) ops).2 = ops.length := by
    rw [countSome_add_countNone]
    exact h3
  refine ⟨hh, hm, hn, ?_⟩
  have hlen : 1 ≤ ops.length := by
    cases ops with
    | nil => exact absurd rfl hne
    | cons a l => simp
  simp only [MemoryManagedCache.get_stats, hh, hm]
  rw [show countSome (applyGets (MemoryManagedCache.make mm me ci t0) ops).2
      + countNone (applyGets (MemoryManagedCache.make mm me ci t0) ops).2 = ops.length from hn]
  rw [Nat.max_eq_left hlen]
  rw [div_mul_eq_mul_div, mul_comm]

/-- Witness for C8: one `get` on a fresh cache misses; the report shows
0 hits, 1 miss and a 0% hit rate. -/
theorem c8_stats_consistency_witness :
    (applyGets (MemoryManagedCache.make 500 100 300 0) [("x", 5)]).1.get_stats.hits = 0
    ∧ (applyGets (MemoryManagedCache.make 500 100 300 0) [("x", 5)]).1.get_stats.misses = 1
    ∧ (applyGets (MemoryManagedCache.make 500 100 300 0) [("x", 5)]).1.get_stats.hit_rate_percent
        = 100 * (0 : Rat) / (1 : Rat) := by
  obtain ⟨h1, h2, h3, h4⟩ := c8_stats_consistency 500 100 300 0 [("x", 5)] (by simp)
  have hs : countSome (applyGets (MemoryManagedCache.make 500 100 300 0) [("x", 5)]).2 = 0 := by
    decide
  have hn : countNone (applyGets (MemoryManagedCache.make 500 100 300 0) [("x", 5)]).2 = 1 := by
    decide
  refine ⟨by rw [h1, hs], by rw [h2, hn], ?_⟩
  rw [h4, hs]
  norm_num

/-! ### Claim C9 -/

theorem toDigitsCore_ne_star :
    ∀ (fuel n : Nat) (ds : List Char), (∀ c ∈ ds, c ≠ '*') →
      ∀ c ∈ Nat.toDigitsCore 10 fuel n ds, c ≠ '*' := by
  have hdig : ∀ m : Nat, m < 10 → Nat.digitChar m ≠ '*' := by decide
  intro fuel
  induction fuel with
  | zero =>
    intro n ds hds c hc
    exact hds c hc
  | succ fuel ih =>
    intro n ds hds c hc
    simp only [Nat.toDigitsCore] at hc
    split at hc
    · rcases List.mem_cons.mp hc with rfl | hmem
      · exact hdig _ (Nat.mod_lt n (by norm_num))
      · exact hds c hmem
    · refine ih _ _ ?_ c hc
      intro c2 hc2
      rcases List.mem_cons.mp hc2 with rfl | hmem
      · exact hdig _ (Nat.mod_lt n (by norm_num))
      · exact hds c2 hmem

/-- No decimal rendering of a natural number contains the character `*`. -/
theorem star_not_mem_repr (n : Nat) : ('*' : Char) ∉ (Nat.repr n).data := by
  intro hmem
  have hdata : (Nat.repr n).data = Nat.toDigits 10 n := rfl
  rw [hdata] at hmem
  exact toDigitsCore_ne_star (n + 1) n [] (by intro c hc; cases hc) '*' hmem rfl

theorem star_not_mem_append {a b : List Char}
    (ha : ('*' : Char) ∉ a) (hb : ('*' : Char) ∉ b) : ('*' : Char) ∉ a ++ b := by
  intro h
  rcases List.mem_append.mp h with h | h
  · exact ha h
  · exact hb h

/-- No chat-history key the managers generate contains the character `*`
(in either branch of the `if session_id:` truthiness test). -/
theorem star_not_mem_chatHistoryKey (uid : Nat) (sid : Option Nat) (skip limit : Nat) :
    ('*' : Char) ∉ (chatHistoryKey uid sid skip limit).data := by
  have hplain : ('*' : Char)
      ∉ ("chat_history:" ++ Nat.repr uid ++ ":" ++ Nat.repr skip ++ ":"
          ++ Nat.repr limit).data := by
    simp only [String.data_append]
    exact star_not_mem_append (star_not_mem_append (star_not_mem_append (star_not_mem_append
      (star_not_mem_append (by decide) (star_not_mem_repr uid)) (by decide))
      (star_not_mem_repr skip)) (by decide)) (star_not_mem_repr limit)
  cases sid with
  | some s =>
    by_cases hs : s = 0
    · simp only [chatHistoryKey, if_pos hs]
      exact hplain
    · simp only [chatHistoryKey, if_neg hs, String.data_append]
      exact star_not_mem_append (star_not_mem_append (star_not_mem_append (star_not_mem_append
        (star_not_mem_append (star_not_mem_append (star_not_mem_append (by decide)
        (star_not_mem_repr uid)) (by decide)) (star_not_mem_repr s)) (by decide))
        (star_not_mem_repr skip)) (by decide)) (star_not_mem_repr limit)
  | none =>
    simp only [chatHistoryKey]
    exact hplain

/-- For a truthy (non-zero) session id, the invalidation string ends in a
literal `*`. -/
theorem star_mem_invalidation_key (uid sid : Nat) (hs : sid ≠ 0) :
    ('*' : Char) ∈ (userHistoryInvalidationKey uid (some sid)).data := by
  simp only [userHistoryInvalidationKey, if_neg hs, String.data_append, List.mem_append]
  right
  decide

theorem pyStartsWith_eq_false_of_star {s pre : String}
    (hs : ('*' : Char) ∉ s.data) (hp : ('*' : Char) ∈ pre.data) :
    pyStartsWith s pre = false := by
  unfold pyStartsWith
  cases h : pre.data.isPrefixOf s.data with
  | false => rfl
  | true =>
    exact (hs (( List.isPrefixOf_iff_prefix.mp h).subset hp)).elim

theorem invalidateScan_eq_self {c : MemoryManagedCache} {ck : String}
    (h : ∀ k ∈ keys c.cache, pyStartsWith k ck = false) : invalidateScan c ck = c := by
  unfold invalidateScan
  have hnil : (c.cache.map Prod.fst).filter (fun k => pyStartsWith k ck) = [] := by
    refine List.filter_eq_nil_iff.mpr ?_
    intro a ha
    simp [h a ha]
  rw [hnil]
  rfl

/-- A cache holding one session-scoped chat-history entry
(`chat_history:1:session:2:0:10`). -/
def c9ZeroCache : MemoryManagedCache :=
  ((MemoryManagedCache.make 500 100 300 0).set (chatHistoryKey 1 (some 2) 0 10)
    c5Value 300 1).1

/-- Counterexample to C9 as stated: the claim asserts the invalidation
removes no entries for every non-`None` session id, but the source tests
Python truthiness (`if session_id:`), so `session_id = 0` — non-`None` yet
falsy — falls into the all-user-history branch, builds
`"chat_history:1:"` (no `*`), matches the stored session-scoped key and
deletes it: the cached history does not survive. -/
theorem c9_session_zero_counterexample :
    c9ZeroCache.cache.length = 1
    ∧ (invalidate_user_history c9ZeroCache 1 (some 0)).cache = [] := by
  exact ⟨by decide, by decide⟩

/-- C9 (amended): for every truthy — non-`None` and non-zero — session id,
the session-scoped invalidation never removes anything.  The string it
matches with `startswith` then ends in a literal `*`, no generated key
contains `*` (the corresponding position holds a decimal digit), so no
generated key matches; consequently `invalidate_user_history(user_id,
session_id)` is the identity on any cache whose keys are free of `*` —
in particular on any cache the managers populated.  (At the falsy
`session_id = 0` the code instead deletes all of the user's history, see
the counterexample.) -/
theorem c9_session_invalidation_is_noop :
    (∀ uid sid skip limit uid2 sid2 : Nat, sid2 ≠ 0 →
       pyStartsWith (chatHistoryKey uid (some sid) skip limit)
         (userHistoryInvalidationKey uid2 (some sid2)) = false)
    ∧ (∀ uid skip limit uid2 sid2 : Nat, sid2 ≠ 0 →
       pyStartsWith (chatHistoryKey uid none skip limit)
         (userHistoryInvalidationKey uid2 (some sid2)) = false)
    ∧ (∀ uid sid skip limit : Nat, ('*' : Char) ∉ (chatHistoryKey uid (some sid) skip limit).data)
    ∧ (∀ (c : MemoryManagedCache) (uid sid : Nat), sid ≠ 0 →
       (∀ k ∈ keys c.cache, ('*' : Char) ∉ k.data) →
       invalidate_user_history c uid (some sid) = c) := by
  refine ⟨?_, ?_, ?_, ?_⟩
  · intro uid sid skip limit uid2 sid2 h2
    exact pyStartsWith_eq_false_of_star (star_not_mem_chatHistoryKey uid (some sid) skip limit)
      (star_mem_invalidation_key uid2 sid2 h2)
  · intro uid skip limit uid2 sid2 h2
    exact pyStartsWith_eq_false_of_star (star_not_mem_chatHistoryKey uid none skip limit)
      (star_mem_invalidation_key uid2 sid2 h2)
  · intro uid sid skip limit
    exact star_not_mem_chatHistoryKey uid (some sid) skip limit
  · intro c uid sid h2 h
    refine invalidateScan_eq_self ?_
    intro k hk
    exact pyStartsWith_eq_false_of_star (h k hk) (star_mem_invalidation_key uid sid h2)

/-- A cache populated through the managers' chat-history keys. -/
def c9Cache : MemoryManagedCache :=
  (((MemoryManagedCache.make 500 100 300 0).set (chatHistoryKey 1 (some 2) 0 10)
      c5Value 300 1).1.set (chatHistoryKey 1 none 0 10) c5Value 300 2).1

/-- Witness for C9: on a concrete two-entry cache of generated keys, the
session-scoped invalidation with the truthy session id 2 removes nothing. -/
theorem c9_session_invalidation_is_noop_witness :
    invalidate_user_history c9Cache 1 (some 2) = c9Cache
    ∧ c9Cache.cache.length = 2 :=
  ⟨c9_session_invalidation_is_noop.2.2.2 c9Cache 1 2 (by decide) (by decide), by decide⟩

/-! ### Claim C2 -/

theorem evictLoop_length_lt (maxE req : Nat) (h1 : 1 ≤ maxE) :
    ∀ (l : List (String × CacheEntry)) (ev cnt : Nat),
      l.length ≤ maxE → (evictLoop maxE req l ev cnt).1.length < maxE := by
  intro l
  induction l with
  | nil =>
    intro ev cnt _
    simpa [evictLoop] using h1
  | cons p rest ih =>
    intro ev cnt hlen
    obtain ⟨k, e⟩ := p
    rw [evictLoop]
    split
    · split
      · simp only [List.length_cons] at hlen ⊢
        omega
      · refine ih _ _ ?_
        simp only [List.length_cons] at hlen
        omega
    · rename_i hcond
      push_neg at hcond
      simpa using hcond.1

theorem set_preserves_config (c : MemoryManagedCache) (k : String) (v : Value)
    (ttl now : Nat) :
    (c.set k v ttl now).1.max_entries = c.max_entries
    ∧ (c.set k v ttl now).1.max_memory_mb = c.max_memory_mb
    ∧ (c.set k v ttl now).1.cleanup_interval_seconds = c.cleanup_interval_seconds := by
  simp only [MemoryManagedCache.set, ensureMemorySpace, evictEntries]
  split
  all_goals exact ⟨rfl, rfl, rfl⟩

theorem set_length_le (c : MemoryManagedCache) (k : String) (v : Value) (ttl now : Nat)
    (h1 : 1 ≤ c.max_entries) (h2 : c.cache.length ≤ c.max_entries) :
    (c.set k v ttl now).1.cache.length ≤ c.max_entries := by
  simp only [MemoryManagedCache.set, ensureMemorySpace, evictEntries]
  split
  · rename_i hcond
    simp only [List.length_append, List.length_cons, List.length_nil]
    have hkept : (c.cache.filter (fun p => !(p.2.is_expired now))).length ≤ c.max_entries :=
      le_trans (List.length_filter_le _ _) h2
    have hloop := evictLoop_length_lt c.max_entries (CacheEntry.make k v ttl now).size_bytes h1
      (c.cache.filter (fun p => !(p.2.is_expired now)))
      (currentMemoryBytes (c.cache.filter (fun p => p.2.is_expired now)))
      (c.cache.length - (c.cache.filter (fun p => !(p.2.is_expired now))).length) hkept
    have herase := length_eraseKey_le
      ((evictLoop c.max_entries (CacheEntry.make k v ttl now).size_bytes
        (c.cache.filter (fun p => !(p.2.is_expired now)))
        (currentMemoryBytes (c.cache.filter (fun p => p.2.is_expired now)))
        (c.cache.length - (c.cache.filter (fun p => !(p.2.is_expired now))).length)).1) k
    omega
  · rename_i hcond
    push_neg at hcond
    simp only [List.length_append, List.length_cons, List.length_nil]
    have herase := length_eraseKey_le c.cache k
    have := hcond.1
    omega

theorem applySets_length (ops : List SetOp) :
    ∀ (c : MemoryManagedCache) (me : Nat), c.max_entries = me → 1 ≤ me →
      c.cache.length ≤ me → (applySets c ops).cache.length ≤ me := by
  induction ops with
  | nil =>
    intro c me hme _ hlen
    exact hlen
  | cons op ops ih =>
    intro c me hme h1 hlen
    have hstep := set_length_le c op.key op.value op.ttl op.now (hme ▸ h1) (hme ▸ hlen)
    have hcfg := (set_preserves_config c op.key op.value op.ttl op.now).1
    exact ih (c.set op.key op.value op.ttl op.now).1 me (hcfg.trans hme) h1 (hme ▸ hstep)

/-- C2: starting from a cache constructed with any `max_entries ≥ 1`, after
every `set` call of an arbitrary call sequence completes, the number of
stored entries is at most `max_entries` (every intermediate state is
`applySets` of some call-list, so the universally quantified list covers
each point of the sequence). -/
theorem c2_capacity_invariant (mm me ci t0 : Nat) (ops : List SetOp) (h1 : 1 ≤ me) :
    (applySets (MemoryManagedCache.make mm me ci t0) ops).cache.length ≤ me :=
  applySets_length ops (MemoryManagedCache.make mm me ci t0) me rfl h1 (Nat.zero_le me)

/-- Witness for C2: three sets (one key repeated) on a `max_entries = 2`
cache stay within the ceiling. -/
theorem c2_capacity_invariant_witness :
    (applySets (MemoryManagedCache.make 500 2 300 0)
      [⟨"a", c5Value, 300, 1⟩, ⟨"b", c5Value, 300, 2⟩, ⟨"a", c5Value, 300, 3⟩]).cache.length
      ≤ 2 :=
  c2_capacity_invariant 500 2 300 0
    [⟨"a", c5Value, 300, 1⟩, ⟨"b", c5Value, 300, 2⟩, ⟨"a", c5Value, 300, 3⟩] (by decide)

/-! ### Claim C10 -/

theorem evictLoop_suffix (maxE req : Nat) :
    ∀ (l : List (String × CacheEntry)) (ev cnt : Nat),
      (evictLoop maxE req l ev cnt).1.IsSuffix l := by
  intro l
  induction l with
  | nil =>
    intro ev cnt
    simp [evictLoop]
  | cons p rest ih =>
    intro ev cnt
    obtain ⟨k, e⟩ := p
    rw [evictLoop]
    split
    · split
      · exact List.suffix_cons _ _
      · exact (ih _ _).trans (List.suffix_cons _ _)
    · exact List.suffix_refl _

theorem keys_subset_of_sublist {l1 l2 : List (String × CacheEntry)}
    (h : l1.Sublist l2) : keys l1 ⊆ keys l2 :=
  (h.map Prod.fst).subset

theorem evictEntries_cache_no_expired (c : MemoryManagedCache) (req now : Nat)
    (hlive : ∀ p ∈ c.cache, p.2.is_expired now = false) :
    (evictEntries c req now).cache = (evictLoop c.max_entries req c.cache 0 0).1 := by
  unfold evictEntries
  have hkept : c.cache.filter (fun p => !(p.2.is_expired now)) = c.cache :=
    List.filter_eq_self.mpr (by intro p hp; simp [hlive p hp])
  have hexp : c.cache.filter (fun p => p.2.is_expired now) = [] :=
    List.filter_eq_nil_iff.mpr (by intro p hp; simp [hlive p hp])
  rw [hkept, hexp]
  simp only [Nat.sub_self, show currentMemoryBytes [] = 0 from rfl]

/-- C10: on a cache already holding exactly `max_entries` entries, replacing
a key `k` that is already present still evicts: the capacity check counts
the about-to-be-replaced entry, so when `k` is not the least-recently-used
binding and nothing is expired, the unrelated LRU head `k0` is removed even
though the replacement alone would not have increased the entry count; the
final count is strictly below `max_entries`. -/
theorem c10_replacement_at_capacity_evicts_unrelated
    (c : MemoryManagedCache) (k : String) (v : Value) (ttl now : Nat)
    (k0 : String) (e0 : CacheEntry) (rest : List (String × CacheEntry))
    (hn : NodupKeys c.cache)
    (hshape : c.cache = (k0, e0) :: rest)
    (hfull : c.cache.length = c.max_entries)
    (hlive : ∀ p ∈ c.cache, p.2.is_expired now = false)
    (hk : k ∈ keys c.cache)
    (hne : k ≠ k0) :
    lookup (c.set k v ttl now).1.cache k0 = none
    ∧ (c.set k v ttl now).1.cache.length < c.max_entries
    ∧ lookup (c.set k v ttl now).1.cache k = some (CacheEntry.make k v ttl now) := by
  have hme1 : 1 ≤ c.max_entries := by
    rw [← hfull, hshape]
    simp
  have hkrest : k ∈ keys rest := by
    rw [hshape] at hk
    simp only [keys, List.map_cons, List.mem_cons] at hk
    rcases hk with h | h
    · exact absurd h hne
    · exact h
  have hnrest : k0 ∉ keys rest ∧ NodupKeys rest := by
    rw [hshape] at hn
    simpa [NodupKeys, keys] using hn
  have hset : (c.set k v ttl now).1.cache
      = eraseKey (ensureMemorySpace
          { c with stats := { c.stats with
                                total_operations := c.stats.total_operations + 1 } }
          (CacheEntry.make k v ttl now).size_bytes now).cache k
        ++ [(k, CacheEntry.make k v ttl now)] := rfl
  have htrig : ensureMemorySpace
      { c with stats := { c.stats with
                            total_operations := c.stats.total_operations + 1 } }
      (CacheEntry.make k v ttl now).size_bytes now
      = evictEntries
          { c with stats := { c.stats with
                                total_operations := c.stats.total_operations + 1 } }
          (CacheEntry.make k v ttl now).size_bytes now := by
    unfold ensureMemorySpace
    rw [if_pos]
    exact Or.inl (le_of_eq hfull.symm)
  have hcache : (evictEntries
      { c with stats := { c.stats with
                            total_operations := c.stats.total_operations + 1 } }
      (CacheEntry.make k v ttl now).size_bytes now).cache
      = (evictLoop c.max_entries (CacheEntry.make k v ttl now).size_bytes c.cache 0 0).1 :=
    evictEntries_cache_no_expired _ _ _ hlive
  have hloop1 : (evictLoop c.max_entries (CacheEntry.make k v ttl now).size_bytes
        c.cache 0 0).1
      = (evictLoop c.max_entries (CacheEntry.make k v ttl now).size_bytes rest
          (0 + e0.size_bytes) (0 + 1)).1 := by
    rw [hshape, evictLoop, if_pos, if_neg]
    · norm_num
    · refine Or.inl (le_of_eq ?_)
      rw [← hfull, hshape]
      simp
  set R := evictLoop c.max_entries (CacheEntry.make k v ttl now).size_bytes rest
    (0 + e0.size_bytes) (0 + 1) with hR
  have hsuf : R.1.IsSuffix rest := evictLoop_suffix _ _ rest _ _
  have hsub : R.1.Sublist rest := hsuf.sublist
  have hk0R : k0 ∉ keys R.1 := fun hmem => hnrest.1 (keys_subset_of_sublist hsub hmem)
  have hnR : NodupKeys R.1 := nodupKeys_of_sublist hsub hnrest.2
  have hfinal : (c.set k v ttl now).1.cache
      = eraseKey R.1 k ++ [(k, CacheEntry.make k v ttl now)] := by
    rw [hset, htrig, hcache, hloop1]
  have hrestlen : rest.length + 1 = c.max_entries := by
    rw [← hfull, hshape]
    simp
  refine ⟨?_, ?_, ?_⟩
  · rw [hfinal, lookup_append]
    have h1 : lookup (eraseKey R.1 k) k0 = none := by
      refine lookup_eq_none_iff.mpr ?_
      intro hmem
      exact hk0R (keys_subset_of_sublist (eraseKey_sublist R.1 k) hmem)
    rw [h1]
    simp only [lookup, if_neg hne]
  · rw [hfinal]
    simp only [List.length_append, List.length_cons, List.length_nil]
    by_cases hkR : k ∈ keys R.1
    · have hlen := length_eraseKey_of_mem hkR
      have hRlt : R.1.length < c.max_entries := by
        rw [hR]
        refine evictLoop_length_lt _ _ hme1 rest _ _ ?_
        omega
      omega
    · have heq : eraseKey R.1 k = R.1 := eraseKey_of_not_mem hkR
      have hRne : R.1 ≠ rest := by
        intro he
        rw [he] at hkR
        exact hkR hkrest
      have hRlt : R.1.length < rest.length := by
        rcases Nat.lt_or_ge R.1.length rest.length with h | h
        · exact h
        · exact absurd (hsuf.eq_of_length (le_antisymm hsub.length_le h)) hRne
      rw [heq]
      omega
  · rw [hfinal, lookup_append, lookup_eraseKey_self hnR]
    simp [lookup]

/-- Witness for C10: a full `max_entries = 2` cache `[b, a]` (b least
recently used); replacing `a` evicts `b` and leaves a single entry. -/
theorem c10_replacement_at_capacity_evicts_unrelated_witness :
    let c2 := ((MemoryManagedCache.make 500 2 300 0).set "b" c5Value 300 1).1
    let c3 := (c2.set "a" c5Value 300 2).1
    lookup (c3.set "a" c5Value 300 3).1.cache "b" = none
    ∧ (c3.set "a" c5Value 300 3).1.cache.length < c3.max_entries
    ∧ lookup (c3.set "a" c5Value 300 3).1.cache "a"
        = some (CacheEntry.make "a" c5Value 300 3) := by
  intro c2 c3
  exact c10_replacement_at_capacity_evicts_unrelated c3 "a" c5Value 300 3 "b"
    (CacheEntry.make "b" c5Value 300 1) [("a", CacheEntry.make "a" c5Value 300 2)]
    (by decide) (by decide) (by decide) (by decide) (by decide) (by decide)

/-! ### Claim C1 -/

theorem delete_cache (c : MemoryManagedCache) (k : String) :
    (c.delete k).1.cache = eraseKey c.cache k := by
  unfold MemoryManagedCache.delete
  cases h : lookup c.cache k with
  | some e => rfl
  | none => exact (eraseKey_of_not_mem (lookup_eq_none_iff.mp h)).symm

theorem deleteKeys_cache (ks : List String) :
    ∀ c : MemoryManagedCache, (deleteKeys c ks).cache = List.foldl eraseKey c.cache ks := by
  induction ks with
  | nil => intro c; rfl
  | cons k ks ih =>
    intro c
    show (deleteKeys (c.delete k).1 ks).cache = _
    rw [ih, delete_cache]
    rfl

theorem eraseKey_eq_filter {l : List (String × CacheEntry)} {k : String}
    (hn : NodupKeys l) : eraseKey l k = l.filter (fun p => decide (p.1 ≠ k)) := by
  induction l with
  | nil => rfl
  | cons p rest ih =>
    obtain ⟨k0, e0⟩ := p
    simp only [NodupKeys, keys, List.map_cons, List.nodup_cons] at hn
    by_cases hk : k0 = k
    · subst hk
      simp only [eraseKey, if_pos rfl, List.filter_cons, ne_eq, not_true_eq_false,
        decide_False, Bool.false_eq_true, if_false, reduceIte]
      refine (List.filter_eq_self.mpr ?_).symm
      intro p hp
      simp only [ne_eq, decide_eq_true_eq]
      intro hbad
      exact hn.1 (hbad ▸ List.mem_map_of_mem Prod.fst hp)
    · simp only [eraseKey, if_neg hk, List.filter_cons, ne_eq, hk, not_false_eq_true,
        decide_True, if_true, reduceIte]
      rw [ih hn.2]

theorem foldl_eraseKey_eq_filter (ks : List String) :
    ∀ l : List (String × CacheEntry), NodupKeys l →
      List.foldl eraseKey l ks = l.filter (fun p => decide (p.1 ∉ ks)) := by
  induction ks with
  | nil =>
    intro l _
    refine (List.filter_eq_self.mpr ?_).symm
    intro p _
    simp
  | cons k ks ih =>
    intro l hn
    have hnk : NodupKeys (eraseKey l k) := nodupKeys_of_sublist (eraseKey_sublist l k) hn
    show List.foldl eraseKey (eraseKey l k) ks = _
    rw [ih (eraseKey l k) hnk, eraseKey_eq_filter hn, List.filter_filter]
    refine List.filter_congr ?_
    intro p _
    simp only [List.mem_cons, not_or, ne_eq]
    by_cases h1 : p.1 = k
    · simp [h1]
    · by_cases h2 : p.1 ∈ ks
      all_goals simp [h1, h2]

theorem invalidateScan_cache {c : MemoryManagedCache} {ck : String}
    (hn : NodupKeys c.cache) :
    (invalidateScan c ck).cache = c.cache.filter (fun p => !(pyStartsWith p.1 ck)) := by
  unfold invalidateScan
  rw [deleteKeys_cache, foldl_eraseKey_eq_filter _ _ hn]
  refine List.filter_congr ?_
  intro p hp
  have hpk : p.1 ∈ c.cache.map Prod.fst := List.mem_map_of_mem Prod.fst hp
  by_cases h : pyStartsWith p.1 ck = true
  · simp [List.mem_filter, hpk, h]
  · simp only [Bool.not_eq_true] at h
    simp [List.mem_filter, h]

/-- The C1 scenario cache: three entries set under scoped keys. -/
def c1Scenario : MemoryManagedCache :=
  ((((MemoryManagedCache.make 500 100 300 0).set "scope:1:x" c5Value 300 1).1.set
    "scope:1:y" c5Value 300 2).1.set "scope:2:z" c5Value 300 3).1

/-- C1 (amended): the repository's prefix invalidation — the scan-and-delete
body the managers run over the engine's internal key collection — removes
exactly the entries whose key starts with the computed string (and returns
no count); its surviving cache agrees with the cache component of the
spec's `invalidate_by_prefix`.  On the scenario
`set("scope:1:x")`, `set("scope:1:y")`, `set("scope:2:z")`, scanning with
`"scope:1:"` removes exactly 2 entries and `get("scope:2:z")` still hits. -/
theorem c1_prefix_invalidation_scan :
    (∀ (c : MemoryManagedCache) (ck : String), NodupKeys c.cache →
       (invalidateScan c ck).cache = c.cache.filter (fun p => !(pyStartsWith p.1 ck))
       ∧ (invalidateScan c ck).cache = (invalidate_by_prefix_spec c ck).1.cache)
    ∧ c1Scenario.cache.length = 3
    ∧ (invalidateScan c1Scenario "scope:1:").cache.length = 1
    ∧ ((invalidateScan c1Scenario "scope:1:").get "scope:2:z" 4).2 = some c5Value
    ∧ lookup (invalidateScan c1Scenario "scope:1:").cache "scope:1:x" = none
    ∧ lookup (invalidateScan c1Scenario "scope:1:").cache "scope:1:y" = none := by
  refine ⟨?_, by decide, by decide, by decide, by decide, by decide⟩
  intro c ck hn
  exact ⟨invalidateScan_cache hn, invalidateScan_cache hn⟩

/-- Witness for C1 on the scenario cache and the scenario string. -/
theorem c1_prefix_invalidation_scan_witness :
    (invalidateScan c1Scenario "scope:1:").cache
      = c1Scenario.cache.filter (fun p => !(pyStartsWith p.1 "scope:1:"))
    ∧ (invalidateScan c1Scenario "scope:1:").cache
      = (invalidate_by_prefix_spec c1Scenario "scope:1:").1.cache :=
  c1_prefix_invalidation_scan.1 c1Scenario "scope:1:" (by decide)

/-- Counterexample to C1 as stated: the cache engine offers no
`invalidate_by_prefix(prefix)`; the only bulk invalidations the repository
exposes (`invalidate_user_history` and friends) take a user/session id,
build a `chat_history:`/`llm_response:` match string and return `None`.  At
the claim's own scenario state none of them can remove the two
`scope:1:`-keys: with user id 1, with or without a session id, the call
leaves the cache identical (0 entries removed, no count returned), whereas
the claimed operation at string `"scope:1:"` must remove exactly 2 and
return 2 (as the spec-modelled operation does). -/
theorem c1_no_engine_invalidate_by_prefix_counterexample :
    invalidate_user_history c1Scenario 1 none = c1Scenario
    ∧ invalidate_user_history c1Scenario 1 (some 1) = c1Scenario
    ∧ c1Scenario.cache.length = 3
    ∧ (invalidate_by_prefix_spec c1Scenario "scope:1:").2 = 2 := by
  refine ⟨by decide, by decide, by decide, by decide⟩

/-! ### Claim C3 -/

theorem cMB_cons (p : String × CacheEntry) (l : List (String × CacheEntry)) :
    currentMemoryBytes (p :: l) = p.2.size_bytes + currentMemoryBytes l := by
  simp [currentMemoryBytes]

theorem cMB_append (l1 l2 : List (String × CacheEntry)) :
    currentMemoryBytes (l1 ++ l2) = currentMemoryBytes l1 + currentMemoryBytes l2 := by
  simp [currentMemoryBytes]

theorem cMB_sublist_le {l1 l2 : List (String × CacheEntry)} (h : l1.Sublist l2) :
    currentMemoryBytes l1 ≤ currentMemoryBytes l2 := by
  induction h with
  | slnil => exact le_refl _
  | cons p _ ih =>
    rw [cMB_cons]
    omega
  | cons₂ p _ ih =>
    rw [cMB_cons, cMB_cons]
    omega

theorem cMB_filter_partition (p : String × CacheEntry → Bool) (l : List (String × CacheEntry)) :
    currentMemoryBytes (l.filter p) + currentMemoryBytes (l.filter fun a => !p a)
      = currentMemoryBytes l := by
  induction l with
  | nil => rfl
  | cons a l ih =>
    cases hp : p a
    all_goals
      simp only [List.filter_cons, hp, Bool.not_true, Bool.not_false, cMB_cons, if_true,
        if_false, Bool.false_eq_true, Bool.true_eq_false, reduceIte]
      omega

theorem evictLoop_spec (maxE req : Nat) :
    ∀ (l : List (String × CacheEntry)) (ev cnt : Nat),
      currentMemoryBytes (evictLoop maxE req l ev cnt).1 + (evictLoop maxE req l ev cnt).2.1
        = currentMemoryBytes l + ev
      ∧ (req ≤ (evictLoop maxE req l ev cnt).2.1
         ∨ (evictLoop maxE req l ev cnt).1 = []
         ∨ 1000 < (evictLoop maxE req l ev cnt).2.2) := by
  intro l
  induction l with
  | nil =>
    intro ev cnt
    exact ⟨rfl, Or.inr (Or.inl rfl)⟩
  | cons p rest ih =>
    intro ev cnt
    obtain ⟨k, e⟩ := p
    rw [evictLoop]
    split
    · split
      · rename_i hbreak
        refine ⟨?_, Or.inr (Or.inr hbreak)⟩
        rw [cMB_cons]
        dsimp only
        omega
      · obtain ⟨ih1, ih2⟩ := ih (ev + e.size_bytes) (cnt + 1)
        refine ⟨?_, ih2⟩
        rw [cMB_cons]
        dsimp only
        omega
    · rename_i hcond
      push_neg at hcond
      exact ⟨rfl, Or.inl hcond.2⟩

theorem evictEntries_props (c : MemoryManagedCache) (req now : Nat) :
    ∃ f : Nat,
      currentMemoryBytes (evictEntries c req now).cache + f = currentMemoryBytes c.cache
      ∧ (req ≤ f ∨ (evictEntries c req now).cache = []
         ∨ 1000 < (evictEntries c req now).stats.evictions - c.stats.evictions) := by
  have hcache : (evictEntries c req now).cache
      = (evictLoop c.max_entries req (c.cache.filter (fun p => !(p.2.is_expired now)))
          (currentMemoryBytes (c.cache.filter (fun p => p.2.is_expired now)))
          (c.cache.length - (c.cache.filter (fun p => !(p.2.is_expired now))).length)).1 := rfl
  have hev : (evictEntries c req now).stats.evictions
      = c.stats.evictions
        + (evictLoop c.max_entries req (c.cache.filter (fun p => !(p.2.is_expired now)))
            (currentMemoryBytes (c.cache.filter (fun p => p.2.is_expired now)))
            (c.cache.length - (c.cache.filter (fun p => !(p.2.is_expired now))).length)).2.2 :=
    rfl
  obtain ⟨hacct, hdisj⟩ := evictLoop_spec c.max_entries req
    (c.cache.filter (fun p => !(p.2.is_expired now)))
    (currentMemoryBytes (c.cache.filter (fun p => p.2.is_expired now)))
    (c.cache.length - (c.cache.filter (fun p => !(p.2.is_expired now))).length)
  have hpart := cMB_filter_partition (fun p => p.2.is_expired now) c.cache
  refine ⟨(evictLoop c.max_entries req (c.cache.filter (fun p => !(p.2.is_expired now)))
      (currentMemoryBytes (c.cache.filter (fun p => p.2.is_expired now)))
      (c.cache.length - (c.cache.filter (fun p => !(p.2.is_expired now))).length)).2.1,
    ?_, ?_⟩
  · rw [hcache]
    omega
  · rcases hdisj with h | h | h
    · exact Or.inl h
    · exact Or.inr (Or.inl (hcache.trans h))
    · refine Or.inr (Or.inr ?_)
      rw [hev]
      omega

theorem ensure_soft_budget (c0 : MemoryManagedCache) (k : String) (v : Value)
    (ttl now : Nat)
    (hmem : currentMemoryBytes c0.cache ≤ c0.max_memory_mb * 1048576) :
    currentMemoryBytes
        (eraseKey (ensureMemorySpace c0 (CacheEntry.make k v ttl now).size_bytes now).cache k
          ++ [(k, CacheEntry.make k v ttl now)])
      ≤ c0.max_memory_mb * 1048576
    ∨ (eraseKey (ensureMemorySpace c0 (CacheEntry.make k v ttl now).size_bytes now).cache k
          ++ [(k, CacheEntry.make k v ttl now)]
        = [(k, CacheEntry.make k v ttl now)]
       ∧ c0.max_memory_mb * 1048576 < (CacheEntry.make k v ttl now).size_bytes)
    ∨ 1000 < (ensureMemorySpace c0 (CacheEntry.make k v ttl now).size_bytes now).stats.evictions
        - c0.stats.evictions := by
  by_cases htrig : c0.max_entries ≤ c0.cache.length
      ∨ c0.max_memory_mb * 1048576
        < currentMemoryBytes c0.cache + (CacheEntry.make k v ttl now).size_bytes
  · have hens : ensureMemorySpace c0 (CacheEntry.make k v ttl now).size_bytes now
        = evictEntries c0 (CacheEntry.make k v ttl now).size_bytes now := by
      unfold ensureMemorySpace
      exact if_pos htrig
    obtain ⟨f, hacct, hdisj⟩ :=
      evictEntries_props c0 (CacheEntry.make k v ttl now).size_bytes now
    rcases hdisj with h | h | h
    · refine Or.inl ?_
      rw [hens, cMB_append, cMB_cons]
      have herase := cMB_sublist_le (eraseKey_sublist
        (evictEntries c0 (CacheEntry.make k v ttl now).size_bytes now).cache k)
      simp only [show currentMemoryBytes [] = 0 from rfl]
      omega
    · by_cases hbig : (CacheEntry.make k v ttl now).size_bytes ≤ c0.max_memory_mb * 1048576
      · refine Or.inl ?_
        rw [hens, h]
        simp only [show ∀ k2, eraseKey [] k2 = [] from fun _ => rfl, List.nil_append,
          cMB_cons, show currentMemoryBytes [] = 0 from rfl]
        omega
      · refine Or.inr (Or.inl ⟨?_, by omega⟩)
        rw [hens, h]
        rfl
    · refine Or.inr (Or.inr ?_)
      rw [hens]
      exact h
  · have hens : ensureMemorySpace c0 (CacheEntry.make k v ttl now).size_bytes now = c0 := by
      unfold ensureMemorySpace
      exact if_neg htrig
    push_neg at htrig
    refine Or.inl ?_
    rw [hens, cMB_append, cMB_cons]
    have herase : currentMemoryBytes (eraseKey c0.cache k) ≤ currentMemoryBytes c0.cache :=
      cMB_sublist_le (eraseKey_sublist c0.cache k)
    simp only [show currentMemoryBytes [] = 0 from rfl]
    have := htrig.2
    omega

/-- C3 (amended): if the byte sum is within the budget before a `set`, then
after the call either it is within the budget again, or the cache consists
solely of the new entry whose size alone exceeds the budget (the documented
soft-budget exception), or the call evicted more than 1000 entries — the
eviction loop's 1000-removal safety cap can stop eviction before enough
space has been freed, which the claim's single exception does not cover. -/
theorem c3_memory_soft_budget (c : MemoryManagedCache) (k : String) (v : Value)
    (ttl now : Nat)
    (hmem : currentMemoryBytes c.cache ≤ c.max_memory_mb * 1048576) :
    currentMemoryBytes (c.set k v ttl now).1.cache ≤ c.max_memory_mb * 1048576
    ∨ ((c.set k v ttl now).1.cache = [(k, CacheEntry.make k v ttl now)]
       ∧ c.max_memory_mb * 1048576 < (CacheEntry.make k v ttl now).size_bytes)
    ∨ 1000 < (c.set k v ttl now).1.stats.evictions - c.stats.evictions := by
  have h := ensure_soft_budget
    { c with stats := { c.stats with
                          total_operations := c.stats.total_operations + 1 } }
    k v ttl now hmem
  exact h

/-- Witness for C3 (amended) on a concrete in-budget cache. -/
theorem c3_memory_soft_budget_witness :
    currentMemoryBytes (c1Scenario.set "w" c5Value 300 5).1.cache
      ≤ c1Scenario.max_memory_mb * 1048576
    ∨ ((c1Scenario.set "w" c5Value 300 5).1.cache
         = [("w", CacheEntry.make "w" c5Value 300 5)]
       ∧ c1Scenario.max_memory_mb * 1048576
         < (CacheEntry.make "w" c5Value 300 5).size_bytes)
    ∨ 1000 < (c1Scenario.set "w" c5Value 300 5).1.stats.evictions
        - c1Scenario.stats.evictions :=
  c3_memory_soft_budget c1Scenario "w" c5Value 300 5 (by decide)

/-! ### Claim C3 — counterexample to the claim as stated

A concrete sequence of 1003 `set` calls on a cache built with
`max_memory_mb = 1`, `max_entries = 10000`: 1001 one-byte entries, one
600000-byte entry `B`, then a second 600000-byte entry `r`.  The last call
must evict, but the LRU loop spends its 1000-removal safety cap on the
one-byte entries and stops before freeing the required 600000 bytes, so the
call completes with `B` and `r` both stored: 1200000 bytes against a
1048576-byte budget, with two entries stored and the new entry well within
the budget on its own — outside the claim's single exception. -/

/-- A one-byte payload. -/
def tinyV : Value := ⟨some 1, some 1⟩

/-- A 600000-byte payload. -/
def bigV : Value := ⟨some 600000, some 1⟩

/-- Distinct keys for the one-byte entries. -/
def tKey (i : Nat) : String :=
  String.mk (List.replicate (i + 1) 't')

/-- One one-byte `set` call (all at instant 1, with a long TTL). -/
def tOp (i : Nat) : SetOp := ⟨tKey i, tinyV, 1000000, 1⟩

/-- The binding such a call stores. -/
def tPair (i : Nat) : String × CacheEntry := (tKey i, CacheEntry.make (tKey i) tinyV 1000000 1)

/-- The cache list after the first `n` one-byte calls. -/
def tCache (n : Nat) : List (String × CacheEntry) := (List.range n).map tPair

/-- The full 1003-call sequence. -/
def capOps : List SetOp :=
  (List.range 1001).map tOp ++ [⟨"B", bigV, 1000000, 2⟩, ⟨"r", bigV, 1000000, 3⟩]

/-- The state after running `capOps` from a fresh 1 MB / 10000-entry cache. -/
def capCache : MemoryManagedCache :=
  applySets (MemoryManagedCache.make 1 10000 300 0) capOps

theorem tKey_inj {i j : Nat} (h : tKey i = tKey j) : i = j := by
  have hd := congrArg String.data h
  have hl := congrArg List.length hd
  simp only [tKey, List.length_replicate] at hl
  omega

theorem tKey_ne_of_head {i : Nat} {s : String} (hs : s.data.head? ≠ some 't') :
    tKey i ≠ s := by
  intro h
  apply hs
  rw [← h]
  rfl

theorem tCache_succ (n : Nat) : tCache (n + 1) = tCache n ++ [tPair n] := by
  simp [tCache, List.range_succ]

theorem tCache_length (n : Nat) : (tCache n).length = n := by
  simp [tCache]

theorem cMB_tCache (n : Nat) : currentMemoryBytes (tCache n) = n := by
  induction n with
  | zero => rfl
  | succ n ih =>
    rw [tCache_succ, cMB_append, ih]
    rfl

theorem tKey_not_mem_tCache (n : Nat) : tKey n ∉ keys (tCache n) := by
  intro h
  simp only [keys, tCache, List.map_map, List.mem_map, List.mem_range] at h
  obtain ⟨i, hi, he⟩ := h
  have : i = n := tKey_inj he
  omega

theorem notT_not_mem_tCache (n : Nat) (s : String) (hs : s.data.head? ≠ some 't') :
    s ∉ keys (tCache n) := by
  intro h
  simp only [keys, tCache, List.map_map, List.mem_map, List.mem_range] at h
  obtain ⟨i, hi, he⟩ := h
  exact tKey_ne_of_head hs he

theorem applySets_append (l1 l2 : List SetOp) :
    ∀ c : MemoryManagedCache, applySets c (l1 ++ l2) = applySets (applySets c l1) l2 := by
  induction l1 with
  | nil => intro c; rfl
  | cons op l1 ih =>
    intro c
    exact ih (c.set op.key op.value op.ttl op.now).1

theorem set_cache_formula (c : MemoryManagedCache) (k : String) (v : Value) (ttl now : Nat) :
    (c.set k v ttl now).1.cache
      = eraseKey (ensureMemorySpace
          { c with stats := { c.stats with
                                total_operations := c.stats.total_operations + 1 } }
          (CacheEntry.make k v ttl now).size_bytes now).cache k
        ++ [(k, CacheEntry.make k v ttl now)] := rfl

theorem ensure_cache_no_trigger (c0 : MemoryManagedCache) (sz now : Nat)
    (h : ¬(c0.max_entries ≤ c0.cache.length
        ∨ c0.max_memory_mb * 1048576 < currentMemoryBytes c0.cache + sz)) :
    ensureMemorySpace c0 sz now = c0 := by
  unfold ensureMemorySpace
  exact if_neg h

theorem ensure_cache_trigger (c0 : MemoryManagedCache) (sz now : Nat)
    (h : c0.max_entries ≤ c0.cache.length
        ∨ c0.max_memory_mb * 1048576 < currentMemoryBytes c0.cache + sz) :
    ensureMemorySpace c0 sz now = evictEntries c0 sz now := by
  unfold ensureMemorySpace
  exact if_pos h

theorem tiny_set_cache (c : MemoryManagedCache) (n : Nat) (hn : n ≤ 1000)
    (h1 : c.cache = tCache n) (h2 : c.max_entries = 10000) (h3 : c.max_memory_mb = 1) :
    (c.set (tKey n) tinyV 1000000 1).1.cache = tCache (n + 1) := by
  have hno : ¬(c.max_entries ≤ c.cache.length
      ∨ c.max_memory_mb * 1048576
        < currentMemoryBytes c.cache + (CacheEntry.make (tKey n) tinyV 1000000 1).size_bytes) := by
    rw [h1, h2, h3, tCache_length, cMB_tCache,
      show (CacheEntry.make (tKey n) tinyV 1000000 1).size_bytes = 1 from rfl]
    push_neg
    exact ⟨by omega, by omega⟩
  have hens := ensure_cache_no_trigger
    { c with stats := { c.stats with total_operations := c.stats.total_operations + 1 } }
    (CacheEntry.make (tKey n) tinyV 1000000 1).size_bytes 1 hno
  rw [set_cache_formula, hens]
  dsimp only
  rw [h1, eraseKey_of_not_mem (tKey_not_mem_tCache n), tCache_succ n]
  rfl

theorem tiny_phase (n : Nat) (hn : n ≤ 1001) :
    (applySets (MemoryManagedCache.make 1 10000 300 0) ((List.range n).map tOp)).cache
        = tCache n
    ∧ (applySets (MemoryManagedCache.make 1 10000 300 0)
        ((List.range n).map tOp)).max_entries = 10000
    ∧ (applySets (MemoryManagedCache.make 1 10000 300 0)
        ((List.range n).map tOp)).max_memory_mb = 1 := by
  induction n with
  | zero => exact ⟨rfl, rfl, rfl⟩
  | succ n ih =>
    obtain ⟨ih1, ih2, ih3⟩ := ih (by omega)
    rw [List.range_succ, List.map_append, applySets_append]
    have hx : applySets
        (applySets (MemoryManagedCache.make 1 10000 300 0) ((List.range n).map tOp))
        (List.map tOp [n])
        = ((applySets (MemoryManagedCache.make 1 10000 300 0)
            ((List.range n).map tOp)).set (tKey n) tinyV 1000000 1).1 := rfl
    rw [hx]
    refine ⟨tiny_set_cache _ n (by omega) ih1 ih2 ih3, ?_, ?_⟩
    · rw [(set_preserves_config _ _ _ _ _).1]
      exact ih2
    · rw [(set_preserves_config _ _ _ _ _).2.1]
      exact ih3

theorem bigB_set_cache (c : MemoryManagedCache)
    (h1 : c.cache = tCache 1001) (h2 : c.max_entries = 10000) (h3 : c.max_memory_mb = 1) :
    (c.set "B" bigV 1000000 2).1.cache
      = tCache 1001 ++ [("B", CacheEntry.make "B" bigV 1000000 2)] := by
  have hno : ¬(c.max_entries ≤ c.cache.length
      ∨ c.max_memory_mb * 1048576
        < currentMemoryBytes c.cache + (CacheEntry.make "B" bigV 1000000 2).size_bytes) := by
    rw [h1, h2, h3, tCache_length, cMB_tCache,
      show (CacheEntry.make "B" bigV 1000000 2).size_bytes = 600000 from rfl]
    push_neg
    exact ⟨by omega, by omega⟩
  have hens := ensure_cache_no_trigger
    { c with stats := { c.stats with total_operations := c.stats.total_operations + 1 } }
    (CacheEntry.make "B" bigV 1000000 2).size_bytes 2 hno
  rw [set_cache_formula, hens]
  dsimp only
  rw [h1, eraseKey_of_not_mem (notT_not_mem_tCache 1001 "B" (by decide))]

theorem evictLoop_tiny_run :
    ∀ (l1 l2 : List (String × CacheEntry)) (ev cnt : Nat),
      (∀ p ∈ l1, p.2.size_bytes = 1) →
      cnt + l1.length = 1001 →
      1 ≤ l1.length →
      ev + l1.length ≤ 600000 →
      evictLoop 10000 600000 (l1 ++ l2) ev cnt = (l2, ev + l1.length, 1001) := by
  intro l1
  induction l1 with
  | nil =>
    intro l2 ev cnt _ _ h _
    simp at h
  | cons a l1 ih =>
    intro l2 ev cnt hsz hcnt hpos hev
    obtain ⟨k, e⟩ := a
    have hsize : e.size_bytes = 1 := hsz (k, e) (List.mem_cons_self _ _)
    simp only [List.length_cons] at hcnt hev
    rw [List.cons_append, evictLoop, if_pos (Or.inr (by omega))]
    cases l1 with
    | nil =>
      simp only [List.length_nil] at hcnt hev
      rw [if_pos (by omega : 1000 < cnt + 1)]
      have hc : cnt = 1000 := by omega
      subst hc
      simp only [List.nil_append, List.length_cons, List.length_nil]
      rw [hsize]
    | cons b l1' =>
      simp only [List.length_cons] at hcnt hev
      rw [if_neg (by omega : ¬(1000 < cnt + 1))]
      have hrun := ih l2 (ev + e.size_bytes) (cnt + 1)
        (fun p hp => hsz p (List.mem_cons_of_mem _ hp)) (by simp only [List.length_cons]; omega)
        (by simp) (by rw [hsize]; simp only [List.length_cons]; omega)
      rw [hrun, hsize]
      simp only [List.length_cons, Prod.mk.injEq]
      refine ⟨trivial, by omega, trivial⟩

theorem final_set_cache (c : MemoryManagedCache)
    (h1 : c.cache = tCache 1001 ++ [("B", CacheEntry.make "B" bigV 1000000 2)])
    (h2 : c.max_entries = 10000) (h3 : c.max_memory_mb = 1) :
    (c.set "r" bigV 1000000 3).1.cache
      = [("B", CacheEntry.make "B" bigV 1000000 2), ("r", CacheEntry.make "r" bigV 1000000 3)] := by
  have hcm : currentMemoryBytes c.cache = 601001 := by
    rw [h1, cMB_append, cMB_tCache]
    rfl
  have htrig : c.max_entries ≤ c.cache.length
      ∨ c.max_memory_mb * 1048576
        < currentMemoryBytes c.cache + (CacheEntry.make "r" bigV 1000000 3).size_bytes := by
    refine Or.inr ?_
    rw [h3, hcm, show (CacheEntry.make "r" bigV 1000000 3).size_bytes = 600000 from rfl]
    omega
  have hens := ensure_cache_trigger
    { c with stats := { c.stats with total_operations := c.stats.total_operations + 1 } }
    (CacheEntry.make "r" bigV 1000000 3).size_bytes 3 htrig
  have hlive : ∀ p ∈ ({ c with stats := { c.stats with
      total_operations := c.stats.total_operations + 1 } } : MemoryManagedCache).cache,
      p.2.is_expired 3 = false := by
    dsimp only
    rw [h1]
    intro p hp
    rcases List.mem_append.mp hp with hp | hp
    · simp only [tCache, List.mem_map, List.mem_range] at hp
      obtain ⟨i, -, rfl⟩ := hp
      rfl
    · rcases List.mem_singleton.mp hp with rfl
      rfl
  have hevict := evictEntries_cache_no_expired
    { c with stats := { c.stats with total_operations := c.stats.total_operations + 1 } }
    (CacheEntry.make "r" bigV 1000000 3).size_bytes 3 hlive
  rw [set_cache_formula, hens, hevict]
  dsimp only
  rw [h1, h2, show (CacheEntry.make "r" bigV 1000000 3).size_bytes = 600000 from rfl]
  have hrun := evictLoop_tiny_run (tCache 1001)
    [("B", CacheEntry.make "B" bigV 1000000 2)] 0 0
    (by
      intro p hp
      simp only [tCache, List.mem_map, List.mem_range] at hp
      obtain ⟨i, -, rfl⟩ := hp
      rfl)
    (by rw [tCache_length]) (by rw [tCache_length]; omega) (by rw [tCache_length]; omega)
  rw [hrun]
  rfl

/-- Counterexample to C3 as stated: after the concrete 1003-call `set`
sequence `capOps` on a fresh cache with a 1 MB budget, the stored byte sum
is 1200000 > 1048576 although the cache holds two entries (so it is not the
admitted single-oversized-entry state) and the newly inserted entry's size
(600000 bytes) is well within the budget: the 1000-eviction safety cap
stopped eviction before enough space was freed. -/
theorem c3_memory_invariant_counterexample :
    capCache.cache = [("B", CacheEntry.make "B" bigV 1000000 2),
                      ("r", CacheEntry.make "r" bigV 1000000 3)]
    ∧ capCache.max_memory_mb * 1048576 < currentMemoryBytes capCache.cache
    ∧ capCache.cache.length = 2
    ∧ (CacheEntry.make "r" bigV 1000000 3).size_bytes ≤ capCache.max_memory_mb * 1048576 := by
  obtain ⟨h1, h2, h3⟩ := tiny_phase 1001 (by omega)
  have hsplit : capCache
      = (((applySets (MemoryManagedCache.make 1 10000 300 0)
          ((List.range 1001).map tOp)).set "B" bigV 1000000 2).1.set "r" bigV 1000000 3).1 := by
    show applySets _ capOps = _
    rw [capOps, applySets_append]
    rfl
  have hB := bigB_set_cache _ h1 h2 h3
  have hBme := (set_preserves_config (applySets (MemoryManagedCache.make 1 10000 300 0)
    ((List.range 1001).map tOp)) "B" bigV 1000000 2).1
  have hBmm := (set_preserves_config (applySets (MemoryManagedCache.make 1 10000 300 0)
    ((List.range 1001).map tOp)) "B" bigV 1000000 2).2.1
  have hfin := final_set_cache _ hB (hBme.trans h2) (hBmm.trans h3)
  have hmm : capCache.max_memory_mb = 1 := by
    rw [hsplit]
    rw [(set_preserves_config _ _ _ _ _).2.1, hBmm]
    exact h3
  have hcache : capCache.cache = [("B", CacheEntry.make "B" bigV 1000000 2),
      ("r", CacheEntry.make "r" bigV 1000000 3)] := by
    rw [hsplit]
    exact hfin
  refine ⟨hcache, ?_, ?_, ?_⟩
  · rw [hmm, hcache]
    decide
  · rw [hcache]
    rfl
  · rw [hmm]
    decide

end ChatNova
